import Mathlib

/-!
Verification of the legal-document ingestion and reconciliation core of the
chatbot repository against its natural-language specification.

Python strings are modelled as `List Char` (sequences of Unicode scalar
values, matching Python `str`); dictionaries are modelled as association
lists in insertion order with last-write-wins reads; the side effects of the
vector-store adapter are modelled as explicit operation traces; Python float
arithmetic in the similarity computation is modelled with exact rationals;
raised exceptions are modelled as explicit error values.
-/

namespace Chatbot

/-- Whitespace characters recognised by Python `str.split()`, `str.strip()`
and the regex class `\s` (the ASCII subset, which is all the repository's
data ever contains). -/
def isSpaceChar (c : Char) : Bool :=
  c = ' ' || c = '\t' || c = '\n' || c = '\r' || c = '\x0b' || c = '\x0c'

/-- Python `str.strip()`: drop whitespace from both ends. -/
def stripChars (l : List Char) : List Char :=
  ((l.dropWhile isSpaceChar).reverse.dropWhile isSpaceChar).reverse

/-- Python `str.split()` with no argument: split on maximal runs of
whitespace, discarding empty fragments. -/
def splitWs : List Char → List (List Char)
  | [] => []
  | c :: rest =>
    if isSpaceChar c then splitWs rest
    else
      (c :: rest.takeWhile (fun d => !isSpaceChar d)) ::
        splitWs (rest.dropWhile (fun d => !isSpaceChar d))
termination_by l => l.length
decreasing_by
  · simp only [List.length_cons]; omega
  · have := (List.IsSuffix.sublist
      (List.dropWhile_suffix (l := rest) (fun d => !isSpaceChar d))).length_le
    simp only [List.length_cons]; omega

/-! ## Reconciliation engine: `backend/service/worker_update.py` -/

/-- Unit-cost character edit distance, the semantics of
`rapidfuzz.distance.Levenshtein.distance` used by `get_similarity`. -/
def levenshtein : List Char → List Char → Nat
  | [], ys => ys.length
  | x :: xs, [] => (x :: xs).length
  | x :: xs, y :: ys =>
    if x = y then levenshtein xs ys
    else 1 + min (levenshtein xs (y :: ys))
      (min (levenshtein (x :: xs) ys) (levenshtein xs ys))
termination_by xs ys => xs.length + ys.length
decreasing_by all_goals simp only [List.length_cons]; omega

/-- Model of `get_similarity` (worker_update.py lines 11-14):
`1 - distance / max(len(new), len(old))`.  The division is exact rational
arithmetic; the `none` result models the `ZeroDivisionError` raised when
both strings are empty. -/
def get_similarity (old_content new_content : List Char) : Option ℚ :=
  if max new_content.length old_content.length = 0 then none
  else some (1 - (levenshtein old_content new_content : ℚ) /
      (max new_content.length old_content.length : ℚ))

/-- Store operation issued by the reconciliation engine: an embed-and-insert
of a law (the text saved is the stripped content, as in `embed_and_save`) or
a deletion by law number (`delete_law_number`). -/
inductive Op where
  | insert (law_number : Nat) (text : List Char)
  | delete (law_number : Nat)
deriving DecidableEq, Repr

/-- Exceptions that `update_laws` can propagate (all are wrapped in
`RuntimeError` by the code): empty content in `embed_and_save`
(`ValueError`), a zero division in `get_similarity`, or a missing key when
re-embedding a low-similarity law (`KeyError`). -/
inductive UpdError where
  | emptyContent (law_number : Nat)
  | zeroDivision
  | missingKey (law_number : Nat)
deriving DecidableEq, Repr

/-- State of one `WorkerUpdate.update_laws` run: the trace of store
operations issued so far, the instance field `low_similarity_laws`, and the
pending exception if one was raised. -/
structure UpdState where
  ops : List Op
  lowSim : List Nat
  err : Option UpdError
deriving DecidableEq, Repr

/-- Read of a Python dict modelled as its insertion list: the last binding
of a key wins. -/
def lawLookup (pairs : List (Nat × List Char)) (k : Nat) : Option (List Char) :=
  Option.map Prod.snd ((pairs.filter (fun p => p.1 = k)).getLast?)

/-- Model of `WorkerUpdate.embed_and_save`: raises on whitespace-only
content, otherwise appends one insert operation whose saved text is the
stripped content. -/
def embed_and_save (k : Nat) (content : List Char) (s : UpdState) : UpdState :=
  if stripChars content = [] then { s with err := some (UpdError.emptyContent k) }
  else { s with ops := s.ops ++ [Op.insert k (stripChars content)] }

/-- Comparison pass of `update_laws` (lines 66-78): for each new law in
order, a key present in `existing` is scored and appended to
`low_similarity_laws` when the similarity is at most 0.85, while an absent
key is embedded and saved immediately.  An exception aborts the pass. -/
def compareLoop (existing : Nat → Option (List Char)) :
    List (Nat × List Char) → UpdState → UpdState
  | [], s => s
  | (k, c) :: rest, s =>
    match existing k with
    | some old =>
      match get_similarity old c with
      | none => { s with err := some UpdError.zeroDivision }
      | some sim =>
        if sim ≤ (0.85 : ℚ) then
          compareLoop existing rest { s with lowSim := s.lowSim ++ [k] }
        else compareLoop existing rest s
    | none =>
      let s1 := embed_and_save k c s
      match s1.err with
      | some _ => s1
      | none => compareLoop existing rest s1

/-- Re-embedding pass of `update_laws` (lines 84-85): each law number in
`low_similarity_laws` is looked up in `new_laws` (a missing key raises
`KeyError`) and embedded-and-saved.  An exception aborts the pass. -/
def embedLoop (new_laws : List (Nat × List Char)) :
    List Nat → UpdState → UpdState
  | [], s => s
  | k :: rest, s =>
    match lawLookup new_laws k with
    | none => { s with err := some (UpdError.missingKey k) }
    | some c =>
      let s1 := embed_and_save k c s
      match s1.err with
      | some _ => s1
      | none => embedLoop new_laws rest s1

/-- Model of `WorkerUpdate.update_laws`.  `existing` is the snapshot
returned by `get_existing_laws`; `new_laws` is the dict of new laws as its
insertion list; `lowSim0` is the instance field `low_similarity_laws` at
call time (the constructor initialises it to `[]` and it is never reset).
The comparison pass runs first; if it raised, the exception propagates.
Otherwise all accumulated low-similarity laws are deleted
(`delete_low_similarity_laws`), then re-embedded from `new_laws`. -/
def update_laws (existing : Nat → Option (List Char))
    (new_laws : List (Nat × List Char)) (lowSim0 : List Nat) : UpdState :=
  let s1 := compareLoop existing new_laws ⟨[], lowSim0, none⟩
  match s1.err with
  | some _ => s1
  | none =>
    embedLoop new_laws s1.lowSim
      { s1 with ops := s1.ops ++ s1.lowSim.map Op.delete }

/-- Document row as returned by the Weaviate query in `get_existing_laws`:
both fields may be missing (`None`) and are subject to Python truthiness
(`0` and `""` are falsy). -/
structure StoredDoc where
  law_number : Option Nat
  text : Option (List Char)

/-- One row of the `get_existing_laws` accumulation (lines 43-46): a row
whose `law_number` and `text` are both truthy is recorded, overwriting any
earlier binding of the key; any other row is skipped. -/
def existingStep (m : Nat → Option (List Char)) (d : StoredDoc) :
    Nat → Option (List Char) :=
  match d.law_number, d.text with
  | some (k + 1), some (c :: cs) =>
    fun q => if q = k + 1 then some (c :: cs) else m q
  | _, _ => m

/-- Model of `WorkerUpdate.get_existing_laws` (lines 42-46): build the
snapshot from the queried documents in order, starting empty. -/
def get_existing_laws (docs : List StoredDoc) : Nat → Option (List Char) :=
  docs.foldl existingStep (fun _ => none)

/-- Law number an operation touches. -/
def Op.law : Op → Nat
  | Op.insert k _ => k
  | Op.delete k => k

/-- Test for an insert operation. -/
def Op.isIns : Op → Bool
  | Op.insert _ _ => true
  | Op.delete _ => false

/-- Formalisation of the claimed two-phase application protocol: all
deletions of a batch are issued before all embed-and-insert operations. -/
def deletionsFirst (ops : List Op) : Prop :=
  ops = ops.filter (fun o => !o.isIns) ++ ops.filter (fun o => o.isIns)

/-! ## Text normalisation: `backend/data/shared/text_processing.py` -/

/-- Scan for the first closing bracket: `dropTag l = some r` when `l`
splits as a bracket-free span, the first closing angle bracket, and `r`. -/
def dropTag : List Char → Option (List Char)
  | [] => none
  | c :: rest => if c = '>' then some rest else dropTag rest

theorem dropTag_length :
    ∀ (l r : List Char), dropTag l = some r → r.length < l.length := by
  intro l
  induction l with
  | nil => intro r h; simp [dropTag] at h
  | cons c rest ih =>
    intro r h
    by_cases hc : c = '>'
    · simp only [dropTag, hc, if_pos] at h
      obtain rfl : rest = r := by simpa using h
      simp
    · simp only [dropTag, hc, if_neg, not_false_eq_true] at h
      have := ih r h
      simp only [List.length_cons]
      omega

/-- Model of `remove_html_tags`: delete every leftmost non-overlapping
markup span (the regex `<[^>]*>`: an opening bracket, the characters up to
the first closing bracket, and that closing bracket). -/
def remove_html_tags : List Char → List Char
  | [] => []
  | c :: rest =>
    if c = '<' then
      match hd : dropTag rest with
      | some r => remove_html_tags r
      | none => c :: remove_html_tags rest
    else c :: remove_html_tags rest
termination_by l => l.length
decreasing_by
  · have := dropTag_length rest r hd
    simp only [List.length_cons]
    omega
  · simp only [List.length_cons]; omega
  · simp only [List.length_cons]; omega

/-- Conversion table of `convert_unicode`: each decomposed (base letter,
combining mark) key of `char1252` paired with its composed character from
`charutf8`, in the order the Python dict is built. -/
def cuTable : List ((Char × Char) × Char) := [
  (('a', '̀'), 'à'), (('a', '́'), 'á'), (('a', '̉'), 'ả'),
  (('a', '̃'), 'ã'), (('a', '̣'), 'ạ'), (('â', '̀'), 'ầ'),
  (('â', '́'), 'ấ'), (('â', '̉'), 'ẩ'), (('â', '̃'), 'ẫ'),
  (('â', '̣'), 'ậ'), (('ă', '̀'), 'ằ'), (('ă', '́'), 'ắ'),
  (('ă', '̉'), 'ẳ'), (('ă', '̃'), 'ẵ'), (('ă', '̣'), 'ặ'),
  (('e', '̀'), 'è'), (('e', '́'), 'é'), (('e', '̉'), 'ẻ'),
  (('e', '̃'), 'ẽ'), (('e', '̣'), 'ẹ'), (('ê', '̀'), 'ề'),
  (('ê', '́'), 'ế'), (('ê', '̉'), 'ể'), (('ê', '̃'), 'ễ'),
  (('ê', '̣'), 'ệ'), (('i', '̀'), 'ì'), (('i', '́'), 'í'),
  (('i', '̉'), 'ỉ'), (('i', '̃'), 'ĩ'), (('i', '̣'), 'ị'),
  (('o', '̀'), 'ò'), (('o', '́'), 'ó'), (('o', '̉'), 'ỏ'),
  (('o', '̃'), 'õ'), (('o', '̣'), 'ọ'), (('ô', '̀'), 'ồ'),
  (('ô', '́'), 'ố'), (('ô', '̉'), 'ổ'), (('ô', '̃'), 'ỗ'),
  (('ô', '̣'), 'ộ'), (('ơ', '̀'), 'ờ'), (('ơ', '́'), 'ớ'),
  (('ơ', '̉'), 'ở'), (('ơ', '̃'), 'ỡ'), (('ơ', '̣'), 'ợ'),
  (('u', '̀'), 'ù'), (('u', '́'), 'ú'), (('u', '̉'), 'ủ'),
  (('u', '̃'), 'ũ'), (('u', '̣'), 'ụ'), (('ư', '̀'), 'ừ'),
  (('ư', '́'), 'ứ'), (('ư', '̉'), 'ử'), (('ư', '̃'), 'ữ'),
  (('ư', '̣'), 'ự'), (('y', '̀'), 'ỳ'), (('y', '́'), 'ý'),
  (('y', '̉'), 'ỷ'), (('y', '̃'), 'ỹ'), (('y', '̣'), 'ỵ'),
  (('A', '̀'), 'À'), (('A', '́'), 'Á'), (('A', '̉'), 'Ả'),
  (('A', '̃'), 'Ã'), (('A', '̣'), 'Ạ'), (('Â', '̀'), 'Ầ'),
  (('Â', '́'), 'Ấ'), (('Â', '̉'), 'Ẩ'), (('Â', '̃'), 'Ẫ'),
  (('Â', '̣'), 'Ậ'), (('Ă', '̀'), 'Ằ'), (('Ă', '́'), 'Ắ'),
  (('Ă', '̉'), 'Ẳ'), (('Ă', '̃'), 'Ẵ'), (('Ă', '̣'), 'Ặ'),
  (('E', '̀'), 'È'), (('E', '́'), 'É'), (('E', '̉'), 'Ẻ'),
  (('E', '̃'), 'Ẽ'), (('E', '̣'), 'Ẹ'), (('Ê', '̀'), 'Ề'),
  (('Ê', '́'), 'Ế'), (('Ê', '̉'), 'Ể'), (('Ê', '̃'), 'Ễ'),
  (('Ê', '̣'), 'Ệ'), (('I', '̀'), 'Ì'), (('I', '́'), 'Í'),
  (('I', '̉'), 'Ỉ'), (('I', '̃'), 'Ĩ'), (('I', '̣'), 'Ị'),
  (('O', '̀'), 'Ò'), (('O', '́'), 'Ó'), (('O', '̉'), 'Ỏ'),
  (('O', '̃'), 'Õ'), (('O', '̣'), 'Ọ'), (('Ô', '̀'), 'Ồ'),
  (('Ô', '́'), 'Ố'), (('Ô', '̉'), 'Ổ'), (('Ô', '̃'), 'Ỗ'),
  (('Ô', '̣'), 'Ộ'), (('Ơ', '̀'), 'Ờ'), (('Ơ', '́'), 'Ớ'),
  (('Ơ', '̉'), 'Ở'), (('Ơ', '̃'), 'Ỡ'), (('Ơ', '̣'), 'Ợ'),
  (('U', '̀'), 'Ù'), (('U', '́'), 'Ú'), (('U', '̉'), 'Ủ'),
  (('U', '̃'), 'Ũ'), (('U', '̣'), 'Ụ'), (('Ư', '̀'), 'Ừ'),
  (('Ư', '́'), 'Ứ'), (('Ư', '̉'), 'Ử'), (('Ư', '̃'), 'Ữ'),
  (('Ư', '̣'), 'Ự'), (('Y', '̀'), 'Ỳ'), (('Y', '́'), 'Ý'),
  (('Y', '̉'), 'Ỷ'), (('Y', '̃'), 'Ỹ'), (('Y', '̣'), 'Ỵ')]

/-- Dict lookup into the conversion table. -/
def cuLookup (a b : Char) : Option Char :=
  Option.map Prod.snd (cuTable.find? (fun e => e.1 = (a, b)))

/-- Model of `convert_unicode`: replace every occurrence of a decomposed
pair from the table by its composed character, scanning left to right with
non-overlapping matches (the `re.sub` over the alternation of the
two-character keys). -/
def convert_unicode : List Char → List Char
  | [] => []
  | [c] => [c]
  | a :: b :: rest =>
    match cuLookup a b with
    | some comp => comp :: convert_unicode rest
    | none => a :: convert_unicode (b :: rest)

/-- The `vowels_table` of the module, restricted to its six character
columns (column 0 the unmarked vowel, columns 1-5 the tone-marked forms);
the trailing typing-code column of the Python table is never read by
`standardize_word_typing` because tone marks range over columns 0-5. -/
def vowels_table : List (List Char) :=
  [['a', 'à', 'á', 'ả', 'ã', 'ạ'],
   ['ă', 'ằ', 'ắ', 'ẳ', 'ẵ', 'ặ'],
   ['â', 'ầ', 'ấ', 'ẩ', 'ẫ', 'ậ'],
   ['e', 'è', 'é', 'ẻ', 'ẽ', 'ẹ'],
   ['ê', 'ề', 'ế', 'ể', 'ễ', 'ệ'],
   ['i', 'ì', 'í', 'ỉ', 'ĩ', 'ị'],
   ['o', 'ò', 'ó', 'ỏ', 'õ', 'ọ'],
   ['ô', 'ồ', 'ố', 'ổ', 'ỗ', 'ộ'],
   ['ơ', 'ờ', 'ớ', 'ở', 'ỡ', 'ợ'],
   ['u', 'ù', 'ú', 'ủ', 'ũ', 'ụ'],
   ['ư', 'ừ', 'ứ', 'ử', 'ữ', 'ự'],
   ['y', 'ỳ', 'ý', 'ỷ', 'ỹ', 'ỵ']]

/-- Cell access `vowels_table[row][tone]` (always in range where used). -/
def vtab (r t : Nat) : Char :=
  (vowels_table.getD r []).getD t '*'

/-- The `vowels_to_ids` dict: the (row, column) position of a vowel
character in the table, `none` for a non-vowel. -/
def vowels_to_ids (c : Char) : Option (Nat × Nat) :=
  match vowels_table.enum.find? (fun p => c ∈ p.2) with
  | some (ri, row) =>
    match row.enum.find? (fun q => q.2 = c) with
    | some (ci, _) => some (ri, ci)
    | none => none
  | none => none

/-- First loop of `standardize_word_typing`, effect on one character: a
tone-marked vowel is reset to the unmarked column-0 form of its row, any
other character is kept. -/
def resetChar (c : Char) : Char :=
  match vowels_to_ids c with
  | some (row, col) => if col ≠ 0 then vtab row 0 else c
  | none => c

/-- First loop of `standardize_word_typing`, effect on the remembered tone
mark: the column of each tone-marked vowel overwrites it in turn. -/
def toneStep (t : Nat) (c : Char) : Nat :=
  match vowels_to_ids c with
  | some (_, col) => if col ≠ 0 then col else t
  | none => t

/-- The tone mark remembered after the first loop (0 when no vowel of the
word carries one). -/
def toneOf (w : List Char) : Nat :=
  w.foldl toneStep 0

/-- The `vowel_positions` list collected by the first loop, indices
starting at `i`. -/
def vowelPositionsAux : List Char → Nat → List Nat
  | [], _ => []
  | c :: rest, i =>
    if (vowels_to_ids c).isSome then i :: vowelPositionsAux rest (i + 1)
    else vowelPositionsAux rest (i + 1)

/-- The `vowel_positions` list collected by the first loop. -/
def vowelPositions (w : List Char) : List Nat :=
  vowelPositionsAux w 0

/-- Write `vowels_table[row][tone]` at one vowel position of the word. -/
def placeTone (cs : List Char) (pos tone : Nat) : List Char :=
  match cs.get? pos with
  | some c =>
    match vowels_to_ids c with
    | some (row, _) => cs.set pos (vtab row tone)
    | none => cs
  | none => cs

/-- Second loop of `standardize_word_typing`: the first vowel position
whose row is in the diphthong-medial class (rows 4 and 8 of the table). -/
def findEOPos (cs : List Char) : List Nat → Option Nat
  | [] => none
  | p :: rest =>
    match cs.get? p with
    | some c =>
      match vowels_to_ids c with
      | some (row, _) =>
        if row = 4 ∨ row = 8 then some p else findEOPos cs rest
      | none => findEOPos cs rest
    | none => findEOPos cs rest

/-- Model of `standardize_word_typing`: reset every tone-marked vowel to
its base form remembering the last tone mark, then re-place the tone mark
on the single vowel, else on the first diphthong-medial-class vowel, else
on the second vowel position. -/
def standardize_word_typing (word : List Char) : List Char :=
  match vowelPositions word with
  | [] => word.map resetChar
  | [p] => placeTone (word.map resetChar) p (toneOf word)
  | p0 :: p1 :: rest =>
    match findEOPos (word.map resetChar) (p0 :: p1 :: rest) with
    | some p => placeTone (word.map resetChar) p (toneOf word)
    | none => placeTone (word.map resetChar) p1 (toneOf word)

/-- Model of `standardize_sentence_typing`: split on whitespace,
standardize each word, join with single spaces. -/
def standardize_sentence_typing (l : List Char) : List Char :=
  List.intercalate [' '] ((splitWs l).map standardize_word_typing)

/-- The Vietnamese letters of the module: the explicit allow-list of
`remove_unnecessary_characters` (the toned vowels and đ) and their upper
case, plus the unmarked non-ASCII base vowels of both cases. -/
def viLetters : List Char := [
  'à', 'á', 'ả', 'ã', 'ạ', 'ă', 'ằ', 'ắ', 'ẳ', 'ẵ', 'ặ', 'â',
  'ầ', 'ấ', 'ẩ', 'ẫ', 'ậ', 'è', 'é', 'ẻ', 'ẽ', 'ẹ', 'ê', 'ề',
  'ế', 'ể', 'ễ', 'ệ', 'ì', 'í', 'ỉ', 'ĩ', 'ị', 'ò', 'ó', 'ỏ',
  'õ', 'ọ', 'ô', 'ồ', 'ố', 'ổ', 'ỗ', 'ộ', 'ơ', 'ờ', 'ớ', 'ở',
  'ỡ', 'ợ', 'ù', 'ú', 'ủ', 'ũ', 'ụ', 'ư', 'ừ', 'ứ', 'ử', 'ữ',
  'ự', 'ỳ', 'ý', 'ỷ', 'ỹ', 'ỵ', 'đ', 'À', 'Á', 'Ả', 'Ã', 'Ạ',
  'Ă', 'Ằ', 'Ắ', 'Ẳ', 'Ẵ', 'Ặ', 'Â', 'Ầ', 'Ấ', 'Ẩ', 'Ẫ', 'Ậ',
  'È', 'É', 'Ẻ', 'Ẽ', 'Ẹ', 'Ê', 'Ề', 'Ế', 'Ể', 'Ễ', 'Ệ', 'Ì',
  'Í', 'Ỉ', 'Ĩ', 'Ị', 'Ò', 'Ó', 'Ỏ', 'Õ', 'Ọ', 'Ô', 'Ồ', 'Ố',
  'Ổ', 'Ỗ', 'Ộ', 'Ơ', 'Ờ', 'Ớ', 'Ở', 'Ỡ', 'Ợ', 'Ù', 'Ú', 'Ủ',
  'Ũ', 'Ụ', 'Ư', 'Ừ', 'Ứ', 'Ử', 'Ữ', 'Ự', 'Ỳ', 'Ý', 'Ỷ', 'Ỹ',
  'Ỵ', 'Đ']

/-- Word characters kept by `remove_unnecessary_characters`: the regex
class keeps whitespace, word characters (modelled over the alphabet the
module manipulates: ASCII alphanumerics and the Vietnamese letters), the
explicit Vietnamese letters and the underscore; everything else is
replaced by a space. -/
def isWordChar (c : Char) : Bool :=
  ('a' ≤ c && c ≤ 'z') || ('A' ≤ c && c ≤ 'Z') ||
    ('0' ≤ c && c ≤ '9') || c = '_' || c ∈ viLetters

/-- Replace each maximal run of whitespace by one space (the substitution
of one-or-more whitespace characters by a single space). -/
def collapseWs : List Char → List Char
  | [] => []
  | [c] => if isSpaceChar c then [' '] else [c]
  | c :: d :: rest =>
    if isSpaceChar c then
      if isSpaceChar d then collapseWs (d :: rest)
      else ' ' :: collapseWs (d :: rest)
    else c :: collapseWs (d :: rest)

/-- Model of `remove_unnecessary_characters`: replace every character
outside the allowed class by a space, collapse whitespace runs to single
spaces, and strip. -/
def remove_unnecessary_characters (l : List Char) : List Char :=
  stripChars (collapseWs
    (l.map (fun c => if isSpaceChar c || isWordChar c then c else ' ')))

/-- Model of `text_preprocess`, the full normalizer: markup removal,
Unicode composition, tone-mark standardisation, character stripping. -/
def text_preprocess (l : List Char) : List Char :=
  remove_unnecessary_characters
    (standardize_sentence_typing (convert_unicode (remove_html_tags l)))

/-! ## PDF processing: `backend/data/pdf/pdf_processing.py` -/

/-- Decimal digit class of the segmentation regex. -/
def isDigitChar (c : Char) : Bool :=
  '0' ≤ c && c ≤ '9'

/-- Python `int` on a nonempty digit string. -/
def digitsToNat (ds : List Char) : Nat :=
  ds.foldl (fun n d => n * 10 + (d.toNat - '0'.toNat)) 0

/-- Match of the unit-boundary marker at the head of the text: the literal
characters of the marker word, a space, one or more decimal digits taken
greedily, and a full stop.  On success, returns the parsed number, the
matched characters and the remaining text. -/
def matchMarker (l : List Char) : Option (Nat × List Char × List Char) :=
  match l with
  | 'Đ' :: 'i' :: 'ề' :: 'u' :: ' ' :: rest =>
    match rest.dropWhile isDigitChar with
    | '.' :: rest2 =>
      if rest.takeWhile isDigitChar = [] then none
      else some (digitsToNat (rest.takeWhile isDigitChar),
        'Đ' :: 'i' :: 'ề' :: 'u' :: ' ' :: (rest.takeWhile isDigitChar ++ ['.']),
        rest2)
    | _ => none
  | _ => none

/-- Scan for the first marker occurrence: the prefix before it and the
suffix starting at it (empty suffix when no marker occurs), corresponding
to the regex scan trying every start position in order. -/
def splitAtMarker : List Char → List Char × List Char
  | [] => ([], [])
  | c :: rest =>
    match matchMarker (c :: rest) with
    | some _ => ([], c :: rest)
    | none =>
      ((splitAtMarker rest).1.cons c, (splitAtMarker rest).2)

theorem splitAtMarker_snd_length (l : List Char) :
    (splitAtMarker l).2.length ≤ l.length := by
  induction l with
  | nil => simp [splitAtMarker]
  | cons c rest ih =>
    unfold splitAtMarker
    cases hm : matchMarker (c :: rest) with
    | some v => simp
    | none =>
      simp only [List.length_cons]
      omega

theorem matchMarker_rest_length (l : List Char) (n : Nat) (mk rest : List Char)
    (h : matchMarker l = some (n, mk, rest)) : rest.length < l.length := by
  unfold matchMarker at h
  split at h
  case h_2 => simp at h
  case h_1 rest0 =>
    split at h
    case h_2 => simp at h
    case h_1 rest2 heq =>
      split at h
      case isTrue => simp at h
      case isFalse hne =>
        obtain ⟨h1, h2, h3⟩ :
            digitsToNat (rest0.takeWhile isDigitChar) = n ∧
            'Đ' :: 'i' :: 'ề' :: 'u' :: ' ' ::
              (rest0.takeWhile isDigitChar ++ ['.']) = mk ∧
            rest2 = rest := by simpa using h
        subst h3
        have h4 : ('.' :: rest2).length ≤ rest0.length := by
          rw [← heq]
          exact (List.IsSuffix.sublist (List.dropWhile_suffix _)).length_le
        simp only [List.length_cons] at h4 ⊢
        omega

/-- Segments starting at a marker: the chain of matches of the
segmentation regex, each unit running from its marker to the next marker
or end of text, with the unit content stripped. -/
def lawSpansAux (l : List Char) : List (Nat × List Char) :=
  match hm : matchMarker l with
  | none => []
  | some (n, mk, rest) =>
    (n, stripChars (mk ++ (splitAtMarker rest).1)) ::
      lawSpansAux (splitAtMarker rest).2
termination_by l.length
decreasing_by
  have h1 := splitAtMarker_snd_length rest
  have h2 := matchMarker_rest_length l n mk rest hm
  omega

/-- Model of `extract_laws_from_text`: the matches of the segmentation
regex in order, as (law number, stripped content) pairs.  The Python dict
is this insertion list (read through `lawLookup`, so a duplicated law
number keeps its last content). -/
def extract_laws_from_text (text : List Char) : List (Nat × List Char) :=
  lawSpansAux (splitAtMarker text).2

/-- Whether the text contains a unit-boundary marker at any position. -/
def hasMarker (text : List Char) : Bool :=
  !(splitAtMarker text).2.isEmpty

/-- Model of `count_words_in_text`: `len(text.split())`. -/
def count_words_in_text (text : List Char) : Nat :=
  (splitWs text).length

/-- Model of `filter_laws_by_length`: keep the units whose raw word count
reaches the threshold and normalize exactly the kept ones. -/
def filter_laws_by_length (laws : List (Nat × List Char)) (min_length : Nat) :
    List (Nat × List Char) :=
  (laws.filter (fun p => min_length ≤ count_words_in_text p.2)).map
    (fun p => (p.1, text_preprocess p.2))

/-- Page-indexed model of the external `pdfminer.high_level.extract_text`:
the document is its list of page texts; `page_numbers`, when given, selects
pages by zero-based index (pdfminer's documented convention), in document
order. -/
def pdfminer_extract_text (pages : List (List Char))
    (page_numbers : Option (List Nat)) : List Char :=
  match page_numbers with
  | none => pages.join
  | some idxs => ((pages.enum.filter (fun p => p.1 ∈ idxs)).map Prod.snd).join

/-- Python truthiness of the optional page arguments: `None` and `0` are
falsy. -/
def truthy : Option Nat → Bool
  | some (n + 1) => true
  | _ => false

/-- Model of `extract_text_from_pdf` (lines 67-74): pass
`range(start_page, end_page)` as pdfminer page numbers when both endpoints
are truthy, else `None` (whole document). -/
def extract_text_from_pdf (pages : List (List Char))
    (start_page end_page : Option Nat) : List Char :=
  pdfminer_extract_text pages
    (if truthy start_page && truthy end_page then
      some (List.range' (start_page.getD 0) (end_page.getD 0 - start_page.getD 0))
    else none)

/-- The two `ValueError`s of `process_file` before embedding (both wrapped
in `RuntimeError` by the enclosing handler): no extracted text, and an
empty segmentation. -/
inductive ProcError where
  | noText
  | segmentationEmpty
deriving DecidableEq, Repr

/-- Model of the text-handling part of `FileProcessingService.process_file`
(lines 79-91), with the extracted text as input: empty text raises, an
empty segmentation raises and aborts ingestion, otherwise the segmented
units are length-filtered and normalized. -/
def process_file (extracted_text : List Char) (min_word : Nat) :
    Except ProcError (List (Nat × List Char)) :=
  if extracted_text = [] then Except.error ProcError.noText
  else if extract_laws_from_text extracted_text = [] then
    Except.error ProcError.segmentationEmpty
  else Except.ok (filter_laws_by_length (extract_laws_from_text extracted_text)
    min_word)

/- ======================== Helper lemmas ======================== -/

section WorkerLemmas

variable {x : Nat → Option (List Char)}

theorem embed_and_save_lowSim (k : Nat) (c : List Char) (s : UpdState) :
    (embed_and_save k c s).lowSim = s.lowSim := by
  unfold embed_and_save; split <;> rfl

/-- Structural characterisation of the comparison pass: operations and
low-similarity keys are only appended, every appended operation is an
insert of a key absent from the snapshot, and every appended low-similarity
key scored at most 0.85 against its stored text. -/
theorem compareLoop_spec (nl : List (Nat × List Char)) (s : UpdState)
    (hs : s.err = none) :
    ∃ t u, (compareLoop x nl s).ops = s.ops ++ t ∧
      (compareLoop x nl s).lowSim = s.lowSim ++ u ∧
      (∀ op ∈ t, ∃ k c, (k, c) ∈ nl ∧ x k = none ∧
          op = Op.insert k (stripChars c)) ∧
      (∀ j ∈ u, ∃ c old sim, (j, c) ∈ nl ∧ x j = some old ∧
          get_similarity old c = some sim ∧ sim ≤ (0.85 : ℚ)) := by
  induction nl generalizing s with
  | nil =>
    exact ⟨[], [], by simp [compareLoop], by simp [compareLoop], by simp, by simp⟩
  | cons p rest ih =>
    obtain ⟨k, c⟩ := p
    cases hek : x k with
    | some old =>
      cases hsim : get_similarity old c with
      | none =>
        refine ⟨[], [], ?_, ?_, by simp, by simp⟩ <;> simp [compareLoop, hek, hsim]
      | some sim =>
        by_cases hle : sim ≤ (0.85 : ℚ)
        · have hred : compareLoop x ((k, c) :: rest) s =
              compareLoop x rest { s with lowSim := s.lowSim ++ [k] } := by
            simp [compareLoop, hek, hsim, hle]
          obtain ⟨t, u, h1, h2, h3, h4⟩ := ih { s with lowSim := s.lowSim ++ [k] } hs
          refine ⟨t, k :: u, by rw [hred]; simpa using h1,
            by rw [hred]; simpa using h2, ?_, ?_⟩
          · intro op hop
            obtain ⟨k2, c2, hm, he, hop2⟩ := h3 op hop
            exact ⟨k2, c2, List.mem_cons_of_mem _ hm, he, hop2⟩
          · intro j hj
            rcases List.mem_cons.mp hj with rfl | hj
            · exact ⟨c, old, sim, List.mem_cons_self _ _, hek, hsim, hle⟩
            · obtain ⟨c2, old2, sim2, hm, he, hs2, hl2⟩ := h4 j hj
              exact ⟨c2, old2, sim2, List.mem_cons_of_mem _ hm, he, hs2, hl2⟩
        · have hred : compareLoop x ((k, c) :: rest) s = compareLoop x rest s := by
            simp [compareLoop, hek, hsim, hle]
          obtain ⟨t, u, h1, h2, h3, h4⟩ := ih s hs
          refine ⟨t, u, by rw [hred]; exact h1, by rw [hred]; exact h2, ?_, ?_⟩
          · intro op hop
            obtain ⟨k2, c2, hm, he, hop2⟩ := h3 op hop
            exact ⟨k2, c2, List.mem_cons_of_mem _ hm, he, hop2⟩
          · intro j hj
            obtain ⟨c2, old2, sim2, hm, he, hs2, hl2⟩ := h4 j hj
            exact ⟨c2, old2, sim2, List.mem_cons_of_mem _ hm, he, hs2, hl2⟩
    | none =>
      by_cases hstrip : stripChars c = []
      · refine ⟨[], [], ?_, ?_, by simp, by simp⟩ <;>
          simp [compareLoop, hek, embed_and_save, hstrip]
      · have hred : compareLoop x ((k, c) :: rest) s =
            compareLoop x rest { s with ops := s.ops ++ [Op.insert k (stripChars c)] } := by
          simp [compareLoop, hek, embed_and_save, hstrip, hs]
        obtain ⟨t, u, h1, h2, h3, h4⟩ :=
          ih { s with ops := s.ops ++ [Op.insert k (stripChars c)] } hs
        refine ⟨Op.insert k (stripChars c) :: t, u,
          by rw [hred]; simpa using h1, by rw [hred]; simpa using h2, ?_, ?_⟩
        · intro op hop
          rcases List.mem_cons.mp hop with rfl | hop
          · exact ⟨k, c, List.mem_cons_self _ _, hek, rfl⟩
          · obtain ⟨k2, c2, hm, he, hop2⟩ := h3 op hop
            exact ⟨k2, c2, List.mem_cons_of_mem _ hm, he, hop2⟩
        · intro j hj
          obtain ⟨c2, old2, sim2, hm, he, hs2, hl2⟩ := h4 j hj
          exact ⟨c2, old2, sim2, List.mem_cons_of_mem _ hm, he, hs2, hl2⟩

/-- Structural characterisation of the re-embedding pass: operations are
only appended, the low-similarity list is untouched, and every appended
operation re-inserts a listed key with its looked-up content. -/
theorem embedLoop_spec (nl : List (Nat × List Char)) (ks : List Nat) (s : UpdState) :
    ∃ t, (embedLoop nl ks s).ops = s.ops ++ t ∧
      (embedLoop nl ks s).lowSim = s.lowSim ∧
      (∀ op ∈ t, ∃ k c, k ∈ ks ∧ lawLookup nl k = some c ∧
          op = Op.insert k (stripChars c)) := by
  induction ks generalizing s with
  | nil => exact ⟨[], by simp [embedLoop], by simp [embedLoop], by simp⟩
  | cons k rest ih =>
    cases hlk : lawLookup nl k with
    | none =>
      refine ⟨[], ?_, ?_, by simp⟩ <;> simp [embedLoop, hlk]
    | some c =>
      by_cases hstrip : stripChars c = []
      · refine ⟨[], ?_, ?_, by simp⟩ <;> simp [embedLoop, hlk, embed_and_save, hstrip]
      · cases hserr : s.err with
        | some e =>
          refine ⟨[Op.insert k (stripChars c)], ?_, ?_, ?_⟩
          · simp [embedLoop, hlk, embed_and_save, hstrip, hserr]
          · simp [embedLoop, hlk, embed_and_save, hstrip, hserr]
          · intro op hop
            rcases List.mem_cons.mp hop with rfl | hop
            · exact ⟨k, c, List.mem_cons_self _ _, hlk, rfl⟩
            · simp at hop
        | none =>
          have hred : embedLoop nl (k :: rest) s =
              embedLoop nl rest { s with ops := s.ops ++ [Op.insert k (stripChars c)] } := by
            simp [embedLoop, hlk, embed_and_save, hstrip, hserr]
          obtain ⟨t, h1, h2, h3⟩ :=
            ih { s with ops := s.ops ++ [Op.insert k (stripChars c)] }
          refine ⟨Op.insert k (stripChars c) :: t,
            by rw [hred]; simpa using h1, by rw [hred]; simpa using h2, ?_⟩
          intro op hop
          rcases List.mem_cons.mp hop with rfl | hop
          · exact ⟨k, c, List.mem_cons_self _ _, hlk, rfl⟩
          · obtain ⟨k2, c2, hm, hl2, hop2⟩ := h3 op hop
            exact ⟨k2, c2, List.mem_cons_of_mem _ hm, hl2, hop2⟩

/-- When the comparison pass finishes without an exception, each new law
whose key is absent from the snapshot has been embedded and saved. -/
theorem compareLoop_insert_mem (nl : List (Nat × List Char)) (s : UpdState)
    (hs : s.err = none) (k : Nat) (c : List Char) (hm : (k, c) ∈ nl)
    (hek : x k = none) (hok : (compareLoop x nl s).err = none) :
    Op.insert k (stripChars c) ∈ (compareLoop x nl s).ops := by
  induction nl generalizing s with
  | nil => simp at hm
  | cons p rest ih =>
    obtain ⟨k1, c1⟩ := p
    cases hek1 : x k1 with
    | some old =>
      rcases List.mem_cons.mp hm with heq | hm1
      · exfalso
        have hk : k = k1 := congrArg Prod.fst heq
        rw [← hk] at hek1
        simp [hek] at hek1
      cases hsim : get_similarity old c1 with
      | none =>
        exfalso
        have : (compareLoop x ((k1, c1) :: rest) s).err = some UpdError.zeroDivision := by
          simp [compareLoop, hek1, hsim]
        rw [this] at hok; exact absurd hok (by simp)
      | some sim =>
        by_cases hle : sim ≤ (0.85 : ℚ)
        · have hred : compareLoop x ((k1, c1) :: rest) s =
              compareLoop x rest { s with lowSim := s.lowSim ++ [k1] } := by
            simp [compareLoop, hek1, hsim, hle]
          rw [hred] at hok ⊢; exact ih _ hs hm1 hok
        · have hred : compareLoop x ((k1, c1) :: rest) s = compareLoop x rest s := by
            simp [compareLoop, hek1, hsim, hle]
          rw [hred] at hok ⊢; exact ih _ hs hm1 hok
    | none =>
      by_cases hstrip : stripChars c1 = []
      · exfalso
        have : (compareLoop x ((k1, c1) :: rest) s).err =
            some (UpdError.emptyContent k1) := by
          simp [compareLoop, hek1, embed_and_save, hstrip]
        rw [this] at hok; exact absurd hok (by simp)
      · have hred : compareLoop x ((k1, c1) :: rest) s =
            compareLoop x rest { s with ops := s.ops ++ [Op.insert k1 (stripChars c1)] } := by
          simp [compareLoop, hek1, embed_and_save, hstrip, hs]
        rw [hred] at hok ⊢
        rcases List.mem_cons.mp hm with heq | hm1
        · obtain ⟨rfl, rfl⟩ := Prod.mk.injEq .. ▸ heq
          obtain ⟨t, u, h1, h2, h3, h4⟩ := compareLoop_spec (x := x) rest
            { s with ops := s.ops ++ [Op.insert k (stripChars c)] } hs
          rw [h1]; simp
        · exact ih _ hs hm1 hok

/-- When the comparison pass finishes without an exception, each new law
whose key is present in the snapshot with similarity at most 0.85 has been
appended to `low_similarity_laws`. -/
theorem compareLoop_lowSim_mem (nl : List (Nat × List Char)) (s : UpdState)
    (hs : s.err = none) (k : Nat) (c : List Char) (old : List Char) (sim : ℚ)
    (hm : (k, c) ∈ nl) (hek : x k = some old)
    (hsim : get_similarity old c = some sim) (hle : sim ≤ (0.85 : ℚ))
    (hok : (compareLoop x nl s).err = none) :
    k ∈ (compareLoop x nl s).lowSim := by
  induction nl generalizing s with
  | nil => simp at hm
  | cons p rest ih =>
    obtain ⟨k1, c1⟩ := p
    cases hek1 : x k1 with
    | some old1 =>
      cases hsim1 : get_similarity old1 c1 with
      | none =>
        exfalso
        have : (compareLoop x ((k1, c1) :: rest) s).err = some UpdError.zeroDivision := by
          simp [compareLoop, hek1, hsim1]
        rw [this] at hok; exact absurd hok (by simp)
      | some sim1 =>
        by_cases hle1 : sim1 ≤ (0.85 : ℚ)
        · have hred : compareLoop x ((k1, c1) :: rest) s =
              compareLoop x rest { s with lowSim := s.lowSim ++ [k1] } := by
            simp [compareLoop, hek1, hsim1, hle1]
          rw [hred] at hok ⊢
          rcases List.mem_cons.mp hm with heq | hm1
          · obtain ⟨rfl, rfl⟩ := Prod.mk.injEq .. ▸ heq
            obtain ⟨t, u, h1, h2, h3, h4⟩ := compareLoop_spec (x := x) rest
              { s with lowSim := s.lowSim ++ [k] } hs
            rw [h2]; simp
          · exact ih _ hs hm1 hok
        · have hred : compareLoop x ((k1, c1) :: rest) s = compareLoop x rest s := by
            simp [compareLoop, hek1, hsim1, hle1]
          rw [hred] at hok ⊢
          rcases List.mem_cons.mp hm with heq | hm1
          · exfalso
            obtain ⟨rfl, rfl⟩ := Prod.mk.injEq .. ▸ heq
            rw [hek] at hek1
            obtain rfl : old = old1 := by simpa using hek1
            rw [hsim] at hsim1
            obtain rfl : sim = sim1 := by simpa using hsim1
            exact hle1 hle
          · exact ih _ hs hm1 hok
    | none =>
      rcases List.mem_cons.mp hm with heq | hm1
      · exfalso
        obtain ⟨rfl, rfl⟩ := Prod.mk.injEq .. ▸ heq
        rw [hek] at hek1; exact absurd hek1 (by simp)
      by_cases hstrip : stripChars c1 = []
      · exfalso
        have : (compareLoop x ((k1, c1) :: rest) s).err =
            some (UpdError.emptyContent k1) := by
          simp [compareLoop, hek1, embed_and_save, hstrip]
        rw [this] at hok; exact absurd hok (by simp)
      · have hred : compareLoop x ((k1, c1) :: rest) s =
            compareLoop x rest { s with ops := s.ops ++ [Op.insert k1 (stripChars c1)] } := by
          simp [compareLoop, hek1, embed_and_save, hstrip, hs]
        rw [hred] at hok ⊢
        exact ih _ hs hm1 hok

/-- When the re-embedding pass finishes without an exception, every listed
key has been re-embedded with its content from `new_laws`. -/
theorem embedLoop_insert_mem (nl : List (Nat × List Char)) (ks : List Nat)
    (s : UpdState) (k : Nat) (c : List Char) (hm : k ∈ ks)
    (hlk : lawLookup nl k = some c) (hok : (embedLoop nl ks s).err = none) :
    Op.insert k (stripChars c) ∈ (embedLoop nl ks s).ops := by
  induction ks generalizing s with
  | nil => simp at hm
  | cons k1 rest ih =>
    cases hlk1 : lawLookup nl k1 with
    | none =>
      exfalso
      have : (embedLoop nl (k1 :: rest) s).err = some (UpdError.missingKey k1) := by
        simp [embedLoop, hlk1]
      rw [this] at hok; exact absurd hok (by simp)
    | some c1 =>
      by_cases hstrip : stripChars c1 = []
      · exfalso
        have : (embedLoop nl (k1 :: rest) s).err = some (UpdError.emptyContent k1) := by
          simp [embedLoop, hlk1, embed_and_save, hstrip]
        rw [this] at hok; exact absurd hok (by simp)
      · cases hserr : s.err with
        | some e =>
          exfalso
          have : (embedLoop nl (k1 :: rest) s).err = some e := by
            simp [embedLoop, hlk1, embed_and_save, hstrip, hserr]
          rw [this] at hok; exact absurd hok (by simp)
        | none =>
          have hred : embedLoop nl (k1 :: rest) s =
              embedLoop nl rest { s with ops := s.ops ++ [Op.insert k1 (stripChars c1)] } := by
            simp [embedLoop, hlk1, embed_and_save, hstrip, hserr]
          rw [hred] at hok ⊢
          rcases List.mem_cons.mp hm with rfl | hm1
          · have hcc : c1 = c := by rw [hlk1] at hlk; simpa using hlk
            obtain ⟨t, h1, h2, h3⟩ := embedLoop_spec nl rest
              { s with ops := s.ops ++ [Op.insert k (stripChars c1)] }
            rw [h1, hcc]; simp
          · exact ih _ hm1 hok

/-- When some listed key is missing from `new_laws`, the re-embedding pass
raises: the resulting state always carries an exception. -/
theorem embedLoop_missing_err (nl : List (Nat × List Char)) (ks : List Nat)
    (s : UpdState) (k : Nat) (hm : k ∈ ks) (hlk : lawLookup nl k = none) :
    (embedLoop nl ks s).err ≠ none := by
  induction ks generalizing s with
  | nil => simp at hm
  | cons k1 rest ih =>
    cases hlk1 : lawLookup nl k1 with
    | none =>
      have : (embedLoop nl (k1 :: rest) s).err = some (UpdError.missingKey k1) := by
        simp [embedLoop, hlk1]
      rw [this]; simp
    | some c1 =>
      have hne : k ≠ k1 := by
        rintro rfl; rw [hlk1] at hlk; exact absurd hlk (by simp)
      have hm1 : k ∈ rest := by
        rcases List.mem_cons.mp hm with rfl | hm1
        · exact absurd rfl hne
        · exact hm1
      by_cases hstrip : stripChars c1 = []
      · have : (embedLoop nl (k1 :: rest) s).err = some (UpdError.emptyContent k1) := by
          simp [embedLoop, hlk1, embed_and_save, hstrip]
        rw [this]; simp
      · cases hserr : s.err with
        | some e =>
          have : (embedLoop nl (k1 :: rest) s).err = some e := by
            simp [embedLoop, hlk1, embed_and_save, hstrip, hserr]
          rw [this]; simp
        | none =>
          have hred : embedLoop nl (k1 :: rest) s =
              embedLoop nl rest { s with ops := s.ops ++ [Op.insert k1 (stripChars c1)] } := by
            simp [embedLoop, hlk1, embed_and_save, hstrip, hserr]
          rw [hred]
          exact ih _ hm1

/-- Exceptions the comparison pass can raise when every stored text in the
snapshot is nonempty never include a zero division. -/
theorem compareLoop_no_zeroDiv (hex : ∀ k old, x k = some old → old ≠ [])
    (nl : List (Nat × List Char)) (s : UpdState)
    (hs : s.err ≠ some UpdError.zeroDivision) :
    (compareLoop x nl s).err ≠ some UpdError.zeroDivision := by
  induction nl generalizing s with
  | nil => simpa [compareLoop] using hs
  | cons p rest ih =>
    obtain ⟨k, c⟩ := p
    cases hek : x k with
    | some old =>
      cases hsim : get_similarity old c with
      | none =>
        exfalso
        have hne := hex k old hek
        unfold get_similarity at hsim
        rcases hmax : max c.length old.length with _ | n
        · have : old.length = 0 := by omega
          exact hne (List.length_eq_zero.mp this)
        · rw [hmax] at hsim; simp at hsim
      | some sim =>
        by_cases hle : sim ≤ (0.85 : ℚ)
        · have hred : compareLoop x ((k, c) :: rest) s =
              compareLoop x rest { s with lowSim := s.lowSim ++ [k] } := by
            simp [compareLoop, hek, hsim, hle]
          rw [hred]; exact ih _ hs
        · have hred : compareLoop x ((k, c) :: rest) s = compareLoop x rest s := by
            simp [compareLoop, hek, hsim, hle]
          rw [hred]; exact ih _ hs
    | none =>
      by_cases hstrip : stripChars c = []
      · have : (compareLoop x ((k, c) :: rest) s).err =
            some (UpdError.emptyContent k) := by
          simp [compareLoop, hek, embed_and_save, hstrip]
        rw [this]; simp
      · cases hserr : s.err with
        | some e =>
          have : (compareLoop x ((k, c) :: rest) s).err = some e := by
            simp [compareLoop, hek, embed_and_save, hstrip, hserr]
          rw [this]
          rw [hserr] at hs
          simpa using hs
        | none =>
          have hred : compareLoop x ((k, c) :: rest) s =
              compareLoop x rest { s with ops := s.ops ++ [Op.insert k (stripChars c)] } := by
            simp [compareLoop, hek, embed_and_save, hstrip, hserr]
          rw [hred]
          exact ih _ (by simp [hserr])

/-- Exceptions the re-embedding pass can raise never include a zero
division. -/
theorem embedLoop_no_zeroDiv (nl : List (Nat × List Char)) (ks : List Nat)
    (s : UpdState) (hs : s.err ≠ some UpdError.zeroDivision) :
    (embedLoop nl ks s).err ≠ some UpdError.zeroDivision := by
  induction ks generalizing s with
  | nil => simpa [embedLoop] using hs
  | cons k1 rest ih =>
    cases hlk1 : lawLookup nl k1 with
    | none =>
      have : (embedLoop nl (k1 :: rest) s).err = some (UpdError.missingKey k1) := by
        simp [embedLoop, hlk1]
      rw [this]; simp
    | some c1 =>
      by_cases hstrip : stripChars c1 = []
      · have : (embedLoop nl (k1 :: rest) s).err = some (UpdError.emptyContent k1) := by
          simp [embedLoop, hlk1, embed_and_save, hstrip]
        rw [this]; simp
      · cases hserr : s.err with
        | some e =>
          have : (embedLoop nl (k1 :: rest) s).err = some e := by
            simp [embedLoop, hlk1, embed_and_save, hstrip, hserr]
          rw [this]
          rw [hserr] at hs
          simpa using hs
        | none =>
          have hred : embedLoop nl (k1 :: rest) s =
              embedLoop nl rest { s with ops := s.ops ++ [Op.insert k1 (stripChars c1)] } := by
            simp [embedLoop, hlk1, embed_and_save, hstrip, hserr]
          rw [hred]
          exact ih _ (by simp [hserr])

/-- A key that appears in a dict whose insertion list has no duplicate keys
is looked up to its unique content. -/
theorem lawLookup_of_nodup (nl : List (Nat × List Char))
    (hnd : (nl.map Prod.fst).Nodup) (k : Nat) (c : List Char)
    (hm : (k, c) ∈ nl) : lawLookup nl k = some c := by
  induction nl with
  | nil => simp at hm
  | cons p rest ih =>
    obtain ⟨k1, c1⟩ := p
    have hcons : (k1 :: rest.map Prod.fst).Nodup := by simpa using hnd
    have hnd1 := List.nodup_cons.mp hcons
    rcases List.mem_cons.mp hm with heq | hm1
    · obtain ⟨rfl, rfl⟩ := Prod.mk.injEq .. ▸ heq
      have hfilter : rest.filter (fun p => p.1 = k) = [] := by
        rw [List.filter_eq_nil_iff]
        intro p hp
        simp only [decide_eq_true_eq]
        intro hpk
        exact hnd1.1 (hpk ▸ List.mem_map_of_mem Prod.fst hp)
      simp [lawLookup, hfilter]
    · have hk1 : k1 ≠ k := by
        rintro rfl
        exact absurd (List.mem_map_of_mem Prod.fst hm1) hnd1.1
      have := ih hnd1.2 hm1
      simpa [lawLookup, hk1] using this

/-- A key absent from a dict is looked up to `none`. -/
theorem lawLookup_of_not_mem (nl : List (Nat × List Char)) (k : Nat)
    (hm : k ∉ nl.map Prod.fst) : lawLookup nl k = none := by
  have hfilter : nl.filter (fun p => p.1 = k) = [] := by
    rw [List.filter_eq_nil_iff]
    intro p hp
    simp only [decide_eq_true_eq]
    intro hpk
    exact hm (hpk ▸ List.mem_map_of_mem Prod.fst hp)
  simp [lawLookup, hfilter]

/-- The `existingStep` accumulation preserves the invariant that every
recorded text is nonempty. -/
theorem existingStep_nonempty (m : Nat → Option (List Char)) (d : StoredDoc)
    (hm : ∀ q v, m q = some v → v ≠ []) :
    ∀ q v, existingStep m d q = some v → v ≠ [] := by
  intro q w hq
  rcases d with ⟨ln, tx⟩
  rcases ln with _ | ln
  · exact hm q w hq
  rcases ln with _ | j
  · exact hm q w hq
  rcases tx with _ | tx
  · exact hm q w hq
  rcases tx with _ | ⟨c, cs⟩
  · exact hm q w hq
  · simp only [existingStep] at hq
    by_cases hqj : q = j + 1
    · rw [if_pos hqj] at hq
      intro hw
      rw [hw] at hq
      simp at hq
    · rw [if_neg hqj] at hq
      exact hm q w hq

/-- Every stored text in the snapshot built by `get_existing_laws` is
nonempty: falsy rows are skipped when the snapshot is built. -/
theorem get_existing_laws_nonempty (docs : List StoredDoc) (k : Nat)
    (old : List Char) (h : get_existing_laws docs k = some old) : old ≠ [] := by
  suffices hgen : ∀ (m : Nat → Option (List Char)),
      (∀ q v, m q = some v → v ≠ []) →
      ∀ q v, (docs.foldl existingStep m) q = some v → v ≠ [] by
    exact hgen (fun _ => none) (by simp) k old h
  clear h
  induction docs with
  | nil => intro m hm q v hv; exact hm q v hv
  | cons d rest ih =>
    intro m hm q v hv
    rw [List.foldl_cons] at hv
    exact ih (existingStep m d) (existingStep_nonempty m d hm) q v hv

/-- Distinct contents cannot share a key in a dict without duplicate keys. -/
theorem mem_unique_of_nodup (nl : List (Nat × List Char))
    (hnd : (nl.map Prod.fst).Nodup) (k : Nat) (c c2 : List Char)
    (h1 : (k, c) ∈ nl) (h2 : (k, c2) ∈ nl) : c = c2 := by
  have e1 := lawLookup_of_nodup nl hnd k c h1
  have e2 := lawLookup_of_nodup nl hnd k c2 h2
  rw [e1] at e2
  simpa using e2

/-- When the comparison pass raised no exception, `update_laws` proceeds to
the delete and re-embed phases. -/
theorem update_laws_eq (nl : List (Nat × List Char)) (ls : List Nat)
    (h : (compareLoop x nl ⟨[], ls, none⟩).err = none) :
    update_laws x nl ls =
      embedLoop nl (compareLoop x nl ⟨[], ls, none⟩).lowSim
        { compareLoop x nl ⟨[], ls, none⟩ with
          ops := (compareLoop x nl ⟨[], ls, none⟩).ops ++
            (compareLoop x nl ⟨[], ls, none⟩).lowSim.map Op.delete } := by
  simp only [update_laws, h]

/-- A successful `update_laws` run implies a successful comparison pass. -/
theorem update_laws_err_none (nl : List (Nat × List Char)) (ls : List Nat)
    (h : (update_laws x nl ls).err = none) :
    (compareLoop x nl ⟨[], ls, none⟩).err = none := by
  by_contra hne
  cases hs1 : (compareLoop x nl ⟨[], ls, none⟩).err with
  | none => exact hne hs1
  | some e =>
    have : update_laws x nl ls = compareLoop x nl ⟨[], ls, none⟩ := by
      simp only [update_laws, hs1]
    rw [this, hs1] at h
    exact absurd h (by simp)

end WorkerLemmas

section TextLemmas

/-- A successful table lookup returns the in-range coordinates of the
character in `vowels_table`. -/
theorem vowels_to_ids_spec (c : Char) (r t : Nat)
    (h : vowels_to_ids c = some (r, t)) : r < 12 ∧ t < 6 ∧ vtab r t = c := by
  unfold vowels_to_ids at h
  split at h
  case h_2 => simp at h
  case h_1 ri row hf =>
    split at h
    case h_2 => simp at h
    case h_1 ci d hg =>
      obtain ⟨rfl, rfl⟩ : ri = r ∧ ci = t := by simpa using h
      have hmem1 := List.mem_of_find?_eq_some hf
      have hrow : vowels_table.get? ri = some row :=
        List.mk_mem_enum_iff_get?.mp hmem1
      have hmem2 := List.mem_of_find?_eq_some hg
      have hcell : row.get? ci = some d :=
        List.mk_mem_enum_iff_get?.mp hmem2
      have hdc : d = c := by simpa using List.find?_some hg
      have hr12 : ri < 12 := by
        obtain ⟨hl, _⟩ := List.get?_eq_some.mp hrow
        simpa [show vowels_table.length = 12 from rfl] using hl
      have hrow6 : row.length = 6 := by
        have hall : ∀ x ∈ vowels_table, x.length = 6 := by decide
        exact hall row (List.get?_mem hrow)
      have ht6 : ci < 6 := by
        obtain ⟨hl, _⟩ := List.get?_eq_some.mp hcell
        omega
      refine ⟨hr12, ht6, ?_⟩
      unfold vtab
      have hrowD : vowels_table.getD ri [] = row := by
        rw [List.getD_eq_get?, hrow]
        rfl
      rw [hrowD, List.getD_eq_get?, hcell]
      simp [hdc]

/-- Every cell of the table looks up to its own coordinates. -/
theorem vowels_to_ids_vtab :
    ∀ r < 12, ∀ t < 6, vowels_to_ids (vtab r t) = some (r, t) := by
  decide

/-- Resetting a vowel lands in column 0 of its row; other characters are
untouched. -/
theorem resetChar_spec (c : Char) (r t : Nat)
    (h : vowels_to_ids c = some (r, t)) :
    resetChar c = vtab r 0 ∧ vowels_to_ids (resetChar c) = some (r, 0) := by
  obtain ⟨hr, ht, hv⟩ := vowels_to_ids_spec c r t h
  have h0 : vowels_to_ids (vtab r 0) = some (r, 0) :=
    vowels_to_ids_vtab r hr 0 (by omega)
  by_cases hne : t = 0
  · subst hne
    have hc : resetChar c = c := by simp [resetChar, h]
    rw [hc]
    exact ⟨hv.symm, h⟩
  · have hc : resetChar c = vtab r 0 := by simp [resetChar, h, hne]
    rw [hc]
    exact ⟨rfl, h0⟩

theorem resetChar_none (c : Char) (h : vowels_to_ids c = none) :
    resetChar c = c := by
  unfold resetChar
  rw [h]

/-- After resetting, no character of a word carries a tone mark. -/
theorem resetChar_zerocol (c : Char) :
    vowels_to_ids (resetChar c) = none ∨
      ∃ r, vowels_to_ids (resetChar c) = some (r, 0) := by
  cases hl : vowels_to_ids c with
  | none => rw [resetChar_none c hl]; exact Or.inl hl
  | some rt => exact Or.inr ⟨rt.1, (resetChar_spec c rt.1 rt.2 hl).2⟩

theorem resetChar_idem (c : Char) : resetChar (resetChar c) = resetChar c := by
  cases hl : vowels_to_ids c with
  | none => rw [resetChar_none c hl, resetChar_none c hl]
  | some rt =>
    obtain ⟨h1, h2⟩ := resetChar_spec c rt.1 rt.2 hl
    obtain ⟨h3, _⟩ := resetChar_spec (resetChar c) rt.1 0 h2
    rw [h3, h1]

theorem map_resetChar_idem (w : List Char) :
    (w.map resetChar).map resetChar = w.map resetChar := by
  rw [List.map_map]
  exact List.map_congr_left (fun c _ => resetChar_idem c)

/-- A character without a tone mark leaves the remembered tone unchanged. -/
theorem toneStep_of_zero (c : Char)
    (h : vowels_to_ids c = none ∨ ∃ r, vowels_to_ids c = some (r, 0)) (t : Nat) :
    toneStep t c = t := by
  unfold toneStep
  rcases h with h | ⟨r, h⟩ <;> rw [h]
  simp

theorem foldl_toneStep_const (l : List Char)
    (h : ∀ c ∈ l, ∀ t, toneStep t c = t) (t : Nat) : l.foldl toneStep t = t := by
  induction l generalizing t with
  | nil => rfl
  | cons c rest ih =>
    rw [List.foldl_cons, h c (List.mem_cons_self _ _) t]
    exact ih (fun d hd => h d (List.mem_cons_of_mem _ hd)) t

theorem toneOf_map_reset (w : List Char) : toneOf (w.map resetChar) = 0 := by
  unfold toneOf
  refine foldl_toneStep_const _ ?_ 0
  intro c hc t
  obtain ⟨d, _, rfl⟩ := List.mem_map.mp hc
  exact toneStep_of_zero _ (resetChar_zerocol d) t

theorem toneStep_lt (t : Nat) (c : Char) (h : t < 6) : toneStep t c < 6 := by
  unfold toneStep
  cases hl : vowels_to_ids c with
  | none => exact h
  | some rt =>
    obtain ⟨r2, col⟩ := rt
    obtain ⟨_, hcol, _⟩ := vowels_to_ids_spec c r2 col hl
    by_cases hc : col = 0
    · subst hc; simpa using h
    · simpa [hc] using hcol

theorem toneOf_lt (w : List Char) : toneOf w < 6 := by
  unfold toneOf
  suffices hgen : ∀ t, t < 6 → w.foldl toneStep t < 6 from hgen 0 (by omega)
  induction w with
  | nil => intro t ht; exact ht
  | cons c rest ih =>
    intro t ht
    rw [List.foldl_cons]
    exact ih _ (toneStep_lt t c ht)

/-- Mapping a vowel-ness preserving function over a word keeps the vowel
positions. -/
theorem vowelPositionsAux_map (f : Char → Char)
    (hf : ∀ c, (vowels_to_ids (f c)).isSome = (vowels_to_ids c).isSome)
    (w : List Char) (i : Nat) :
    vowelPositionsAux (w.map f) i = vowelPositionsAux w i := by
  induction w generalizing i with
  | nil => rfl
  | cons c rest ih =>
    simp only [List.map_cons, vowelPositionsAux, hf c, ih]

theorem vowelPositions_map_reset (w : List Char) :
    vowelPositions (w.map resetChar) = vowelPositions w := by
  unfold vowelPositions
  refine vowelPositionsAux_map resetChar ?_ w 0
  intro c
  cases hl : vowels_to_ids c with
  | none => rw [resetChar_none c hl, hl]
  | some rt =>
    simp [(resetChar_spec c rt.1 rt.2 hl).2, hl]

/-- Every collected vowel position addresses a vowel of the word. -/
theorem vowelPositionsAux_mem (w : List Char) (i p : Nat)
    (hp : p ∈ vowelPositionsAux w i) :
    i ≤ p ∧ ∃ c, w.get? (p - i) = some c ∧ (vowels_to_ids c).isSome = true := by
  induction w generalizing i with
  | nil => simp [vowelPositionsAux] at hp
  | cons c rest ih =>
    by_cases hs : (vowels_to_ids c).isSome = true
    · rw [show vowelPositionsAux (c :: rest) i =
          i :: vowelPositionsAux rest (i + 1) by simp [vowelPositionsAux, hs]] at hp
      rcases List.mem_cons.mp hp with rfl | hp1
      · exact ⟨le_refl _, c, by simp, hs⟩
      · obtain ⟨hle, d, hget, hd⟩ := ih (i + 1) hp1
        refine ⟨by omega, d, ?_, hd⟩
        rw [show p - i = (p - (i + 1)) + 1 by omega]
        simpa using hget
    · rw [show vowelPositionsAux (c :: rest) i =
          vowelPositionsAux rest (i + 1) by simp [vowelPositionsAux, hs]] at hp
      obtain ⟨hle, d, hget, hd⟩ := ih (i + 1) hp
      refine ⟨by omega, d, ?_, hd⟩
      rw [show p - i = (p - (i + 1)) + 1 by omega]
      simpa using hget

theorem vowelPositions_mem (w : List Char) (p : Nat)
    (hp : p ∈ vowelPositions w) :
    ∃ c, w.get? p = some c ∧ (vowels_to_ids c).isSome = true := by
  obtain ⟨_, c, hget, hc⟩ := vowelPositionsAux_mem w 0 p hp
  exact ⟨c, by simpa using hget, hc⟩

/-- Overwriting one position with a character of the same vowel-ness keeps
the vowel positions. -/
theorem vowelPositionsAux_set (w : List Char) (i j : Nat) (x c : Char)
    (hget : w.get? j = some c)
    (hx : (vowels_to_ids x).isSome = (vowels_to_ids c).isSome) :
    vowelPositionsAux (w.set j x) i = vowelPositionsAux w i := by
  induction w generalizing i j with
  | nil => rfl
  | cons c0 rest ih =>
    cases j with
    | zero =>
      obtain rfl : c0 = c := by simpa using hget
      simp only [List.set_cons_zero, vowelPositionsAux, hx]
    | succ j1 =>
      have hget1 : rest.get? j1 = some c := by simpa using hget
      simp only [List.set_cons_succ, vowelPositionsAux, ih (i + 1) j1 hget1]

theorem set_get?_self (l : List Char) (n : Nat) (a : Char)
    (h : l.get? n = some a) : l.set n a = l := by
  induction l generalizing n with
  | nil => rfl
  | cons c rest ih =>
    cases n with
    | zero =>
      obtain rfl : c = a := by simpa using h
      simp
    | succ n1 =>
      have h1 : rest.get? n1 = some a := by simpa using h
      simp [ih n1 h1]

theorem placeTone_eq (cs : List Char) (p t r : Nat) (hr : r < 12)
    (hget : cs.get? p = some (vtab r 0)) :
    placeTone cs p t = cs.set p (vtab r t) := by
  have h0 : vowels_to_ids (vtab r 0) = some (r, 0) :=
    vowels_to_ids_vtab r hr 0 (by omega)
  rw [List.get?_eq_getElem?] at hget
  simp [placeTone, hget, h0]

/-- Characters of a reset word never move the remembered tone. -/
theorem reset_all_zero (w : List Char) :
    ∀ c ∈ w.map resetChar, ∀ t, toneStep t c = t := by
  intro c hc t
  obtain ⟨d, _, rfl⟩ := List.mem_map.mp hc
  exact toneStep_of_zero _ (resetChar_zerocol d) t

/-- The reset word holds the column-0 form of the vowel at each collected
position. -/
theorem reset_get_at_pos (w : List Char) (p : Nat) (hp : p ∈ vowelPositions w) :
    ∃ r, r < 12 ∧ (w.map resetChar).get? p = some (vtab r 0) := by
  obtain ⟨c, hget, hsome⟩ := vowelPositions_mem w p hp
  obtain ⟨rt, hrt⟩ := Option.isSome_iff_exists.mp hsome
  obtain ⟨hr, _, _⟩ := vowels_to_ids_spec c rt.1 rt.2 hrt
  refine ⟨rt.1, hr, ?_⟩
  rw [List.get?_map, hget]
  simp [(resetChar_spec c rt.1 rt.2 hrt).1]

theorem placeTone_map_reset (w : List Char) (p t : Nat) (ht : t < 6)
    (hp : p ∈ vowelPositions w) :
    (placeTone (w.map resetChar) p t).map resetChar = w.map resetChar := by
  obtain ⟨r, hr, hgetcs⟩ := reset_get_at_pos w p hp
  rw [placeTone_eq _ p t r hr hgetcs, List.map_set, map_resetChar_idem,
    (resetChar_spec (vtab r t) r t (vowels_to_ids_vtab r hr t ht)).1]
  exact set_get?_self _ p _ hgetcs

theorem placeTone_positions (w : List Char) (p t : Nat) (ht : t < 6)
    (hp : p ∈ vowelPositions w) :
    vowelPositions (placeTone (w.map resetChar) p t) = vowelPositions w := by
  obtain ⟨r, hr, hgetcs⟩ := reset_get_at_pos w p hp
  rw [placeTone_eq _ p t r hr hgetcs]
  unfold vowelPositions
  rw [vowelPositionsAux_set (w.map resetChar) 0 p (vtab r t) (vtab r 0) hgetcs
    (by rw [vowels_to_ids_vtab r hr t ht, vowels_to_ids_vtab r hr 0 (by omega)]; rfl)]
  exact vowelPositions_map_reset w

theorem toneOf_set (r tone : Nat) (hr : r < 12) (htone : tone < 6) :
    ∀ (cs : List Char) (p : Nat),
      (∀ c ∈ cs, ∀ t2, toneStep t2 c = t2) →
      cs.get? p = some (vtab r 0) →
      toneOf (cs.set p (vtab r tone)) = tone := by
  intro cs
  induction cs with
  | nil => intro p _ hget; simp at hget
  | cons c0 rest ih =>
    intro p hz hget
    cases p with
    | zero =>
      unfold toneOf
      rw [List.set_cons_zero, List.foldl_cons]
      have hstep : toneStep 0 (vtab r tone) = tone := by
        have hvt := vowels_to_ids_vtab r hr tone htone
        by_cases h0 : tone = 0
        · subst h0; simp [toneStep, hvt]
        · simp [toneStep, hvt, h0]
      rw [hstep]
      exact foldl_toneStep_const rest
        (fun d hd => hz d (List.mem_cons_of_mem _ hd)) tone
    | succ p1 =>
      unfold toneOf
      rw [List.set_cons_succ, List.foldl_cons,
        hz c0 (List.mem_cons_self _ _) 0]
      exact ih p1 (fun d hd t2 => hz d (List.mem_cons_of_mem _ hd) t2)
        (by simpa using hget)

theorem placeTone_tone (w : List Char) (p : Nat) (hp : p ∈ vowelPositions w) :
    toneOf (placeTone (w.map resetChar) p (toneOf w)) = toneOf w := by
  obtain ⟨r, hr, hgetcs⟩ := reset_get_at_pos w p hp
  rw [placeTone_eq _ p _ r hr hgetcs]
  exact toneOf_set r (toneOf w) hr (toneOf_lt w) (w.map resetChar) p
    (reset_all_zero w) hgetcs

theorem findEOPos_mem (cs : List Char) (ps : List Nat) (p : Nat)
    (h : findEOPos cs ps = some p) : p ∈ ps := by
  induction ps with
  | nil => simp [findEOPos] at h
  | cons q rest ih =>
    cases hq : cs.get? q with
    | none =>
      rw [List.get?_eq_getElem?] at hq
      rw [show findEOPos cs (q :: rest) = findEOPos cs rest by
        simp [findEOPos, hq]] at h
      exact List.mem_cons_of_mem _ (ih h)
    | some c =>
      rw [List.get?_eq_getElem?] at hq
      cases hl : vowels_to_ids c with
      | none =>
        rw [show findEOPos cs (q :: rest) = findEOPos cs rest by
          simp [findEOPos, hq, hl]] at h
        exact List.mem_cons_of_mem _ (ih h)
      | some rt =>
        by_cases hrow : rt.1 = 4 ∨ rt.1 = 8
        · rw [show findEOPos cs (q :: rest) = some q by
            simp [findEOPos, hq, hl, hrow]] at h
          obtain rfl : q = p := by simpa using h
          exact List.mem_cons_self _ _
        · rw [show findEOPos cs (q :: rest) = findEOPos cs rest by
            simp [findEOPos, hq, hl, hrow]] at h
          exact List.mem_cons_of_mem _ (ih h)

theorem vowelPositionsAux_nil (w : List Char) (i : Nat)
    (h : vowelPositionsAux w i = []) :
    ∀ c ∈ w, vowels_to_ids c = none := by
  induction w generalizing i with
  | nil => simp
  | cons c0 rest ih =>
    by_cases hs : (vowels_to_ids c0).isSome = true
    · rw [show vowelPositionsAux (c0 :: rest) i =
        i :: vowelPositionsAux rest (i + 1) by simp [vowelPositionsAux, hs]] at h
      simp at h
    · rw [show vowelPositionsAux (c0 :: rest) i =
        vowelPositionsAux rest (i + 1) by simp [vowelPositionsAux, hs]] at h
      intro c hc
      rcases List.mem_cons.mp hc with rfl | hc1
      · simpa using hs
      · exact ih (i + 1) h c hc1

theorem toneOf_of_no_vowels (w : List Char) (h : vowelPositions w = []) :
    toneOf w = 0 := by
  unfold toneOf
  refine foldl_toneStep_const w ?_ 0
  intro c hc t
  exact toneStep_of_zero c (Or.inl (vowelPositionsAux_nil w 0 h c hc)) t

/-- Vowel positions are stable under one standardisation pass. -/
theorem swt_positions (w : List Char) :
    vowelPositions (standardize_word_typing w) = vowelPositions w := by
  cases hps : vowelPositions w with
  | nil =>
    simp only [standardize_word_typing, hps]
    rw [vowelPositions_map_reset w, hps]
  | cons p0 tail =>
    cases tail with
    | nil =>
      simp only [standardize_word_typing, hps]
      exact (placeTone_positions w p0 _ (toneOf_lt w)
        (by rw [hps]; exact List.mem_cons_self _ _)).trans hps
    | cons p1 rest =>
      simp only [standardize_word_typing, hps]
      cases hfe : findEOPos (w.map resetChar) (p0 :: p1 :: rest) with
      | some p =>
        simp only [hfe]
        exact (placeTone_positions w p _ (toneOf_lt w)
          (by rw [hps]; exact findEOPos_mem _ _ _ hfe)).trans hps
      | none =>
        simp only [hfe]
        exact (placeTone_positions w p1 _ (toneOf_lt w)
          (by rw [hps]; exact List.mem_cons_of_mem _ (List.mem_cons_self _ _))).trans hps

/-- The reset image is stable under one standardisation pass. -/
theorem swt_map_reset (w : List Char) :
    (standardize_word_typing w).map resetChar = w.map resetChar := by
  cases hps : vowelPositions w with
  | nil =>
    simp only [standardize_word_typing, hps]
    exact map_resetChar_idem w
  | cons p0 tail =>
    cases tail with
    | nil =>
      simp only [standardize_word_typing, hps]
      exact placeTone_map_reset w p0 _ (toneOf_lt w)
        (by rw [hps]; exact List.mem_cons_self _ _)
    | cons p1 rest =>
      simp only [standardize_word_typing, hps]
      cases hfe : findEOPos (w.map resetChar) (p0 :: p1 :: rest) with
      | some p =>
        simp only [hfe]
        exact placeTone_map_reset w p _ (toneOf_lt w)
          (by rw [hps]; exact findEOPos_mem _ _ _ hfe)
      | none =>
        simp only [hfe]
        exact placeTone_map_reset w p1 _ (toneOf_lt w)
          (by rw [hps]; exact List.mem_cons_of_mem _ (List.mem_cons_self _ _))

/-- The remembered tone is stable under one standardisation pass. -/
theorem swt_tone (w : List Char) :
    toneOf (standardize_word_typing w) = toneOf w := by
  cases hps : vowelPositions w with
  | nil =>
    simp only [standardize_word_typing, hps]
    rw [toneOf_map_reset w, toneOf_of_no_vowels w hps]
  | cons p0 tail =>
    cases tail with
    | nil =>
      simp only [standardize_word_typing, hps]
      exact placeTone_tone w p0 (by rw [hps]; exact List.mem_cons_self _ _)
    | cons p1 rest =>
      simp only [standardize_word_typing, hps]
      cases hfe : findEOPos (w.map resetChar) (p0 :: p1 :: rest) with
      | some p =>
        simp only [hfe]
        exact placeTone_tone w p (by rw [hps]; exact findEOPos_mem _ _ _ hfe)
      | none =>
        simp only [hfe]
        exact placeTone_tone w p1
          (by rw [hps]; exact List.mem_cons_of_mem _ (List.mem_cons_self _ _))

/-- Standardising a word is idempotent. -/
theorem standardize_word_typing_idem (w : List Char) :
    standardize_word_typing (standardize_word_typing w) =
      standardize_word_typing w := by
  have hbody : ∀ x : List Char, standardize_word_typing x =
      (match vowelPositions x with
       | [] => x.map resetChar
       | [p] => placeTone (x.map resetChar) p (toneOf x)
       | p0 :: p1 :: rest =>
         match findEOPos (x.map resetChar) (p0 :: p1 :: rest) with
         | some p => placeTone (x.map resetChar) p (toneOf x)
         | none => placeTone (x.map resetChar) p1 (toneOf x)) :=
    fun x => rfl
  rw [hbody (standardize_word_typing w), swt_positions w, swt_map_reset w,
    swt_tone w]
  exact (hbody w).symm

theorem takeWhile_append_all (p : Char → Bool) (a b : List Char)
    (h : ∀ c ∈ a, p c = true) :
    (a ++ b).takeWhile p = a ++ b.takeWhile p := by
  induction a with
  | nil => rfl
  | cons c rest ih =>
    simp [List.takeWhile_cons, h c (List.mem_cons_self _ _),
      ih (fun d hd => h d (List.mem_cons_of_mem _ hd))]

theorem dropWhile_append_all (p : Char → Bool) (a b : List Char)
    (h : ∀ c ∈ a, p c = true) :
    (a ++ b).dropWhile p = b.dropWhile p := by
  induction a with
  | nil => rfl
  | cons c rest ih =>
    simp only [List.cons_append, List.dropWhile_cons,
      h c (List.mem_cons_self _ _), if_true]
    exact ih (fun d hd => h d (List.mem_cons_of_mem _ hd))

theorem intercalate_nil (s : List Char) :
    List.intercalate s ([] : List (List Char)) = [] := rfl

theorem intercalate_single (s : List Char) (a : List Char) :
    List.intercalate s [a] = a := by
  simp [List.intercalate, List.intersperse]

theorem intercalate_cons₂ (s a b : List Char) (t : List (List Char)) :
    List.intercalate s (a :: b :: t) = a ++ s ++ List.intercalate s (b :: t) := by
  simp [List.intercalate, List.intersperse]

/-- Every character of a joined word list is a separator character or a
character of one of the words. -/
theorem mem_intercalate (ws : List (List Char)) (c : Char)
    (h : c ∈ List.intercalate [' '] ws) : c = ' ' ∨ ∃ w ∈ ws, c ∈ w := by
  induction ws with
  | nil => simp [intercalate_nil] at h
  | cons a t ih =>
    cases t with
    | nil =>
      rw [intercalate_single] at h
      exact Or.inr ⟨a, List.mem_cons_self _ _, h⟩
    | cons b t2 =>
      rw [intercalate_cons₂] at h
      rcases List.mem_append.mp h with h1 | h2
      · rcases List.mem_append.mp h1 with h3 | h4
        · exact Or.inr ⟨a, List.mem_cons_self _ _, h3⟩
        · exact Or.inl (by simpa using h4)
      · rcases ih h2 with h5 | ⟨w, hw, hc⟩
        · exact Or.inl h5
        · exact Or.inr ⟨w, List.mem_cons_of_mem _ hw, hc⟩

/-- Splitting a whitespace-free nonempty word alone gives that word. -/
theorem splitWs_word (w : List Char) (hw : w ≠ [])
    (h : ∀ c ∈ w, isSpaceChar c = false) : splitWs w = [w] := by
  cases w with
  | nil => exact absurd rfl hw
  | cons c rest =>
    rw [show splitWs (c :: rest) =
        (c :: rest.takeWhile (fun d => !isSpaceChar d)) ::
          splitWs (rest.dropWhile (fun d => !isSpaceChar d)) by
      simp [splitWs, h c (List.mem_cons_self _ _)]]
    have hall : ∀ d ∈ rest, (fun d => !isSpaceChar d) d = true := by
      intro d hd
      simp [h d (List.mem_cons_of_mem _ hd)]
    rw [show rest.takeWhile (fun d => !isSpaceChar d) = rest ++ List.takeWhile (fun d => !isSpaceChar d) [] from by
        simpa using takeWhile_append_all _ rest [] hall]
    rw [show rest.dropWhile (fun d => !isSpaceChar d) = List.dropWhile (fun d => !isSpaceChar d) [] from by
        simpa using dropWhile_append_all _ rest [] hall]
    simp [splitWs]

/-- Splitting a whitespace-free nonempty word followed by a space resumes
after the space. -/
theorem splitWs_word_space (w t : List Char) (hw : w ≠ [])
    (h : ∀ c ∈ w, isSpaceChar c = false) :
    splitWs (w ++ ' ' :: t) = w :: splitWs t := by
  cases w with
  | nil => exact absurd rfl hw
  | cons c rest =>
    have hall : ∀ d ∈ rest, (fun d => !isSpaceChar d) d = true := by
      intro d hd
      simp [h d (List.mem_cons_of_mem _ hd)]
    rw [show splitWs ((c :: rest) ++ ' ' :: t) =
        (c :: (rest ++ ' ' :: t).takeWhile (fun d => !isSpaceChar d)) ::
          splitWs ((rest ++ ' ' :: t).dropWhile (fun d => !isSpaceChar d)) by
      simp [splitWs, h c (List.mem_cons_self _ _)]]
    rw [takeWhile_append_all _ rest (' ' :: t) hall,
      dropWhile_append_all _ rest (' ' :: t) hall]
    rw [show (' ' :: t).takeWhile (fun d => !isSpaceChar d) = [] by
      simp [List.takeWhile_cons, isSpaceChar]]
    rw [show (' ' :: t).dropWhile (fun d => !isSpaceChar d) = ' ' :: t by
      simp [List.dropWhile_cons, isSpaceChar]]
    rw [show splitWs (' ' :: t) = splitWs t by simp [splitWs, isSpaceChar]]
    simp

/-- Splitting is a left inverse of joining nonempty whitespace-free words
with single spaces. -/
theorem splitWs_intercalate (ws : List (List Char))
    (h : ∀ w ∈ ws, w ≠ [] ∧ ∀ c ∈ w, isSpaceChar c = false) :
    splitWs (List.intercalate [' '] ws) = ws := by
  induction ws with
  | nil => rw [intercalate_nil]; simp [splitWs]
  | cons a t ih =>
    obtain ⟨ha, hanos⟩ := h a (List.mem_cons_self _ _)
    cases t with
    | nil =>
      rw [intercalate_single]
      exact splitWs_word a ha hanos
    | cons b t2 =>
      rw [intercalate_cons₂, List.append_assoc, List.singleton_append,
        splitWs_word_space a _ ha hanos]
      rw [ih (fun w hw => h w (List.mem_cons_of_mem _ hw))]

/-- Every produced word is nonempty, whitespace-free, and made of
characters of the input. -/
theorem splitWs_spec (l : List Char) :
    ∀ w ∈ splitWs l, w ≠ [] ∧ ∀ c ∈ w, c ∈ l ∧ isSpaceChar c = false := by
  induction l using splitWs.induct with
  | case1 => simp [splitWs]
  | case2 c rest hsp ih =>
    rw [show splitWs (c :: rest) = splitWs rest by simp [splitWs, hsp]]
    intro w hw
    obtain ⟨hne, hmem⟩ := ih w hw
    exact ⟨hne, fun d hd =>
      ⟨List.mem_cons_of_mem _ (hmem d hd).1, (hmem d hd).2⟩⟩
  | case3 c rest hsp ih =>
    rw [show splitWs (c :: rest) =
        (c :: rest.takeWhile (fun d => !isSpaceChar d)) ::
          splitWs (rest.dropWhile (fun d => !isSpaceChar d)) by
      simp [splitWs, hsp]]
    intro w hw
    rcases List.mem_cons.mp hw with rfl | hw1
    · refine ⟨by simp, ?_⟩
      intro d hd
      rcases List.mem_cons.mp hd with rfl | hd1
      · exact ⟨List.mem_cons_self _ _, by simpa using hsp⟩
      · have hdt := (List.takeWhile_prefix
          (fun d => !isSpaceChar d) (l := rest)).sublist.subset hd1
        have hdp := List.mem_takeWhile_imp hd1
        exact ⟨List.mem_cons_of_mem _ hdt, by simpa using hdp⟩
    · obtain ⟨hne, hmem⟩ := ih w hw1
      refine ⟨hne, ?_⟩
      intro d hd
      obtain ⟨hdl, hdns⟩ := hmem d hd
      have hsub : rest.dropWhile (fun d => !isSpaceChar d) ⊆ rest :=
        (List.IsSuffix.sublist (List.dropWhile_suffix _)).subset
      exact ⟨List.mem_cons_of_mem _ (hsub hdl), hdns⟩

theorem wordChar_not_space (c : Char) (h : isWordChar c = true) :
    isSpaceChar c = false := by
  by_contra hsp
  have hsp2 : isSpaceChar c = true := by
    cases hb : isSpaceChar c
    · exact absurd hb hsp
    · rfl
  have : c = ' ' ∨ c = '\t' ∨ c = '\n' ∨ c = '\r' ∨ c = '\x0b' ∨ c = '\x0c' := by
    unfold isSpaceChar at hsp2
    rcases Bool.or_eq_true_iff.mp hsp2 with h1 | h1
    rotate_left
    · exact Or.inr (Or.inr (Or.inr (Or.inr (Or.inr (by simpa using h1)))))
    rcases Bool.or_eq_true_iff.mp h1 with h2 | h2
    rotate_left
    · exact Or.inr (Or.inr (Or.inr (Or.inr (Or.inl (by simpa using h2)))))
    rcases Bool.or_eq_true_iff.mp h2 with h3 | h3
    rotate_left
    · exact Or.inr (Or.inr (Or.inr (Or.inl (by simpa using h3))))
    rcases Bool.or_eq_true_iff.mp h3 with h4 | h4
    rotate_left
    · exact Or.inr (Or.inr (Or.inl (by simpa using h4)))
    rcases Bool.or_eq_true_iff.mp h4 with h5 | h5
    · exact Or.inl (by simpa using h5)
    · exact Or.inr (Or.inl (by simpa using h5))
  rcases this with rfl | rfl | rfl | rfl | rfl | rfl <;> exact absurd h (by decide)

/-- Collapsing leaves a whitespace-free list unchanged. -/
theorem collapseWs_nospace (w : List Char)
    (h : ∀ c ∈ w, isSpaceChar c = false) : collapseWs w = w := by
  induction w with
  | nil => rfl
  | cons c rest ih =>
    cases rest with
    | nil => simp [collapseWs, h c (List.mem_cons_self _ _)]
    | cons d rest2 =>
      rw [show collapseWs (c :: d :: rest2) = c :: collapseWs (d :: rest2) by
        simp [collapseWs, h c (List.mem_cons_self _ _)]]
      rw [ih (fun e he => h e (List.mem_cons_of_mem _ he))]

/-- Collapsing walks through a whitespace-free word prefix. -/
theorem collapseWs_word_append (w x : List Char) (hx : x ≠ [])
    (h : ∀ c ∈ w, isSpaceChar c = false) :
    collapseWs (w ++ x) = w ++ collapseWs x := by
  induction w with
  | nil => rfl
  | cons c rest ih =>
    have hc := h c (List.mem_cons_self _ _)
    cases hre : rest ++ x with
    | nil =>
      exact absurd (List.append_eq_nil.mp hre).2 hx
    | cons d rest2 =>
      rw [List.cons_append, hre,
        show collapseWs (c :: d :: rest2) = c :: collapseWs (d :: rest2) by
          simp [collapseWs, hc], ← hre,
        ih (fun e he => h e (List.mem_cons_of_mem _ he))]
      simp

/-- Collapsing absorbs one leading space before a non-space character. -/
theorem collapseWs_space_cons (d : Char) (t : List Char)
    (hd : isSpaceChar d = false) :
    collapseWs (' ' :: d :: t) = ' ' :: collapseWs (d :: t) := by
  simp only [collapseWs]
  rw [if_pos (show isSpaceChar ' ' = true by decide),
    if_neg (show ¬ isSpaceChar d = true by simp [hd])]

/-- Joining nonempty whitespace-free words with single spaces is already
collapsed. -/
theorem collapseWs_intercalate (ws : List (List Char))
    (h : ∀ w ∈ ws, w ≠ [] ∧ ∀ c ∈ w, isSpaceChar c = false) :
    collapseWs (List.intercalate [' '] ws) = List.intercalate [' '] ws := by
  induction ws with
  | nil => rfl
  | cons a t ih =>
    obtain ⟨ha, hanos⟩ := h a (List.mem_cons_self _ _)
    cases t with
    | nil =>
      rw [intercalate_single]
      exact collapseWs_nospace a hanos
    | cons b t2 =>
      obtain ⟨hb, hbnos⟩ := h b (List.mem_cons_of_mem _ (List.mem_cons_self _ _))
      rw [intercalate_cons₂, List.append_assoc, List.singleton_append]
      rw [collapseWs_word_append a _ (by simp) hanos]
      obtain ⟨d, b2, rfl⟩ : ∃ d b2, b = d :: b2 := by
        cases b with
        | nil => exact absurd rfl hb
        | cons d b2 => exact ⟨d, b2, rfl⟩
      obtain ⟨X, hX⟩ : ∃ X, List.intercalate [' '] ((d :: b2) :: t2) = d :: X := by
        cases t2 with
        | nil => exact ⟨b2, by rw [intercalate_single]⟩
        | cons e t3 =>
          refine ⟨b2 ++ ' ' :: List.intercalate [' '] (e :: t3), ?_⟩
          rw [intercalate_cons₂, List.append_assoc, List.singleton_append]
          rfl
      rw [hX, collapseWs_space_cons d X (hbnos d (List.mem_cons_self _ _)), ← hX,
        ih (fun w hw => h w (List.mem_cons_of_mem _ hw))]

theorem dropWhile_eq_self_of_head (p : Char → Bool) (l : List Char)
    (h : ∀ c, l.head? = some c → p c = false) : l.dropWhile p = l := by
  cases l with
  | nil => rfl
  | cons c rest => simp [List.dropWhile_cons, h c rfl]

/-- Stripping leaves a list with non-whitespace ends unchanged. -/
theorem stripChars_eq_self (l : List Char)
    (h1 : ∀ c, l.head? = some c → isSpaceChar c = false)
    (h2 : ∀ c, l.getLast? = some c → isSpaceChar c = false) :
    stripChars l = l := by
  unfold stripChars
  rw [dropWhile_eq_self_of_head _ l h1]
  rw [dropWhile_eq_self_of_head _ l.reverse
    (fun c hc => h2 c (by rwa [List.head?_reverse] at hc))]
  exact List.reverse_reverse l

theorem getLast?_append_right (a b : List Char) (hb : b ≠ []) :
    (a ++ b).getLast? = b.getLast? := by
  induction a with
  | nil => rfl
  | cons c rest ih =>
    rw [List.cons_append, List.getLast?_cons, ih]
    cases hre : rest ++ b with
    | nil => exact absurd (List.append_eq_nil.mp hre).2 hb
    | cons d rest2 =>
      cases b with
      | nil => exact absurd rfl hb
      | cons e b2 => simp [List.getLast?_cons]

/-- The last character of a join of nonempty words is the last character
of the last word, hence a word character. -/
theorem getLast_intercalate (ws : List (List Char))
    (h : ∀ w ∈ ws, w ≠ [] ∧ ∀ c ∈ w, isWordChar c = true) :
    ∀ c, (List.intercalate [' '] ws).getLast? = some c → isWordChar c = true := by
  induction ws with
  | nil => intro c hc; rw [intercalate_nil] at hc; simp at hc
  | cons a t ih =>
    obtain ⟨ha, haw⟩ := h a (List.mem_cons_self _ _)
    cases t with
    | nil =>
      intro c hc
      rw [intercalate_single] at hc
      exact haw c (List.mem_of_mem_getLast? hc)
    | cons b t2 =>
      intro c hc
      obtain ⟨hb, _⟩ := h b (List.mem_cons_of_mem _ (List.mem_cons_self _ _))
      have hne : List.intercalate [' '] (b :: t2) ≠ [] := by
        cases t2 with
        | nil => rw [intercalate_single]; exact hb
        | cons e t3 =>
          rw [intercalate_cons₂]
          intro habs
          exact hb (List.append_eq_nil.mp (List.append_eq_nil.mp habs).1).1
      rw [intercalate_cons₂, List.append_assoc, List.singleton_append,
        getLast?_append_right _ _ (by simp)] at hc
      rw [List.getLast?_cons] at hc
      cases hi : List.intercalate [' '] (b :: t2) with
      | nil => exact absurd hi hne
      | cons e t3 =>
        rw [hi] at hc
        simp only [List.getLast?_cons] at hc ⊢
        refine ih (fun w hw => h w (List.mem_cons_of_mem _ hw)) c ?_
        rw [hi]
        simpa [List.getLast?_cons] using hc

/-- On a join of nonempty words made of word characters, the stripping
stage is the identity. -/
theorem remove_unnecessary_intercalate (ws : List (List Char))
    (h : ∀ w ∈ ws, w ≠ [] ∧ ∀ c ∈ w, isWordChar c = true) :
    remove_unnecessary_characters (List.intercalate [' '] ws) =
      List.intercalate [' '] ws := by
  have hgood : ∀ w ∈ ws, w ≠ [] ∧ ∀ c ∈ w, isSpaceChar c = false :=
    fun w hw => ⟨(h w hw).1, fun c hc => wordChar_not_space c ((h w hw).2 c hc)⟩
  unfold remove_unnecessary_characters
  have hmap : (List.intercalate [' '] ws).map
      (fun c => if isSpaceChar c || isWordChar c then c else ' ') =
      List.intercalate [' '] ws := by
    have hpt : ∀ c ∈ List.intercalate [' '] ws,
        (fun c => if isSpaceChar c || isWordChar c then c else ' ') c = id c := by
      intro c hc
      rcases mem_intercalate ws c hc with rfl | ⟨w, hw, hcw⟩
      · simp [isSpaceChar]
      · simp [(h w hw).2 c hcw]
    rw [List.map_congr_left hpt, List.map_id]
  rw [hmap, collapseWs_intercalate ws hgood]
  refine stripChars_eq_self _ ?_ ?_
  · intro c hc
    cases ws with
    | nil => rw [intercalate_nil] at hc; simp at hc
    | cons a t =>
      obtain ⟨ha, hanos⟩ := hgood a (List.mem_cons_self _ _)
      obtain ⟨d, a2, rfl⟩ : ∃ d a2, a = d :: a2 := by
        cases a with
        | nil => exact absurd rfl ha
        | cons d a2 => exact ⟨d, a2, rfl⟩
      have hhead : (List.intercalate [' '] ((d :: a2) :: t)).head? = some d := by
        cases t with
        | nil => rw [intercalate_single]; rfl
        | cons b t2 => rw [intercalate_cons₂]; rfl
      rw [hhead] at hc
      obtain rfl : d = c := by simpa using hc
      exact hanos d (List.mem_cons_self _ _)
  · intro c hc
    exact wordChar_not_space c (getLast_intercalate ws h c hc)

/-- Markup removal is the identity on bracket-free text. -/
theorem remove_html_tags_id (l : List Char) (h : ∀ c ∈ l, c ≠ '<') :
    remove_html_tags l = l := by
  induction l with
  | nil => simp [remove_html_tags]
  | cons c rest ih =>
    rw [show remove_html_tags (c :: rest) = c :: remove_html_tags rest by
      simp [remove_html_tags, h c (List.mem_cons_self _ _)]]
    rw [ih (fun d hd => h d (List.mem_cons_of_mem _ hd))]

/-- The combining marks that occur as second component of a conversion
key. -/
def cuMarks : List Char := ['̀', '́', '̉', '̃', '̣']

set_option maxRecDepth 4000 in
theorem cuLookup_mark (a b : Char) (h : cuLookup a b ≠ none) : b ∈ cuMarks := by
  unfold cuLookup at h
  cases hf : cuTable.find? (fun e => e.1 = (a, b)) with
  | none => rw [hf] at h; simp at h
  | some e =>
    have hmem := List.mem_of_find?_eq_some hf
    have hep : e.1 = (a, b) := by simpa using List.find?_some hf
    have hall : ∀ x ∈ cuTable, x.1.2 ∈ cuMarks := by decide
    have := hall e hmem
    rw [hep] at this
    exact this

/-- Unicode composition is the identity on mark-free text. -/
theorem convert_unicode_id (l : List Char) (h : ∀ c ∈ l, c ∉ cuMarks) :
    convert_unicode l = l := by
  induction l using convert_unicode.induct with
  | case1 => rfl
  | case2 c => rfl
  | case3 a b rest comp hcu ih =>
    exact absurd (cuLookup_mark a b (by simp [hcu]))
      (h b (List.mem_cons_of_mem _ (List.mem_cons_self _ _)))
  | case4 a b rest hcu ih =>
    rw [show convert_unicode (a :: b :: rest) = a :: convert_unicode (b :: rest) by
      simp [convert_unicode, hcu]]
    rw [ih (fun d hd => h d (List.mem_cons_of_mem _ hd))]

theorem vtab_wordChar : ∀ r < 12, ∀ t < 6, isWordChar (vtab r t) = true := by
  decide

theorem resetChar_wordChar (c : Char) (h : isWordChar c = true) :
    isWordChar (resetChar c) = true := by
  cases hl : vowels_to_ids c with
  | none => rw [resetChar_none c hl]; exact h
  | some rt =>
    obtain ⟨hr, _, _⟩ := vowels_to_ids_spec c rt.1 rt.2 hl
    rw [(resetChar_spec c rt.1 rt.2 hl).1]
    exact vtab_wordChar rt.1 hr 0 (by omega)

theorem placeTone_length (cs : List Char) (p t : Nat) :
    (placeTone cs p t).length = cs.length := by
  unfold placeTone
  cases hq : cs.get? p with
  | none => rfl
  | some c =>
    cases hl : vowels_to_ids c with
    | none => simp [hl]
    | some rt => simp [hl]

theorem swt_length (w : List Char) :
    (standardize_word_typing w).length = w.length := by
  cases hps : vowelPositions w with
  | nil => simp [standardize_word_typing, hps]
  | cons p0 tail =>
    cases tail with
    | nil => simp [standardize_word_typing, hps, placeTone_length]
    | cons p1 rest =>
      simp only [standardize_word_typing, hps]
      cases hfe : findEOPos (w.map resetChar) (p0 :: p1 :: rest) with
      | some p => simp [hfe, placeTone_length]
      | none => simp [hfe, placeTone_length]

theorem swt_ne_nil (w : List Char) (hw : w ≠ []) :
    standardize_word_typing w ≠ [] := by
  intro habs
  have := swt_length w
  rw [habs] at this
  exact hw (List.length_eq_zero.mp this.symm)

/-- One standardisation pass keeps every character a word character. -/
theorem swt_wordChars (w : List Char) (h : ∀ c ∈ w, isWordChar c = true) :
    ∀ c ∈ standardize_word_typing w, isWordChar c = true := by
  have hmapw : ∀ c ∈ w.map resetChar, isWordChar c = true := by
    intro c hc
    obtain ⟨d, hd, rfl⟩ := List.mem_map.mp hc
    exact resetChar_wordChar d (h d hd)
  have hplace : ∀ p ∈ vowelPositions w, ∀ c ∈
      placeTone (w.map resetChar) p (toneOf w), isWordChar c = true := by
    intro p hp c hc
    obtain ⟨r, hr, hgetcs⟩ := reset_get_at_pos w p hp
    rw [placeTone_eq _ p _ r hr hgetcs] at hc
    rcases List.mem_or_eq_of_mem_set hc with hc1 | rfl
    · exact hmapw c hc1
    · exact vtab_wordChar r hr (toneOf w) (toneOf_lt w)
  cases hps : vowelPositions w with
  | nil =>
    simp only [standardize_word_typing, hps]
    exact hmapw
  | cons p0 tail =>
    cases tail with
    | nil =>
      simp only [standardize_word_typing, hps]
      exact hplace p0 (by rw [hps]; exact List.mem_cons_self _ _)
    | cons p1 rest =>
      simp only [standardize_word_typing, hps]
      cases hfe : findEOPos (w.map resetChar) (p0 :: p1 :: rest) with
      | some p =>
        simp only [hfe]
        exact hplace p (by rw [hps]; exact findEOPos_mem _ _ _ hfe)
      | none =>
        simp only [hfe]
        exact hplace p1
          (by rw [hps]; exact List.mem_cons_of_mem _ (List.mem_cons_self _ _))

/-- The standardized words of a word-or-whitespace string are nonempty and
made of word characters. -/
theorem swt_words_good (l : List Char)
    (hl : ∀ c ∈ l, isWordChar c = true ∨ isSpaceChar c = true) :
    ∀ w ∈ (splitWs l).map standardize_word_typing,
      w ≠ [] ∧ ∀ c ∈ w, isWordChar c = true := by
  intro w hw
  obtain ⟨w0, hw0, rfl⟩ := List.mem_map.mp hw
  obtain ⟨hne, hmem⟩ := splitWs_spec l w0 hw0
  have hword : ∀ c ∈ w0, isWordChar c = true := by
    intro c hc
    rcases hl c (hmem c hc).1 with h | h
    · exact h
    · rw [(hmem c hc).2] at h
      exact absurd h (by simp)
  exact ⟨swt_ne_nil w0 hne, swt_wordChars w0 hword⟩

/-- On word-or-whitespace input the whole normalizer is: split, standardize
each word, re-join with single spaces. -/
theorem text_preprocess_eq (l : List Char)
    (hl : ∀ c ∈ l, isWordChar c = true ∨ isSpaceChar c = true) :
    text_preprocess l =
      List.intercalate [' '] ((splitWs l).map standardize_word_typing) := by
  have hlt : remove_html_tags l = l := by
    refine remove_html_tags_id l ?_
    intro c hc habs
    rcases hl c hc with h | h <;> rw [habs] at h <;> exact absurd h (by decide)
  have hcv : convert_unicode l = l := by
    refine convert_unicode_id l ?_
    intro c hc hmem
    have hmark : ∀ m ∈ cuMarks, isWordChar m = false ∧ isSpaceChar m = false := by
      decide
    obtain ⟨hm1, hm2⟩ := hmark c hmem
    rcases hl c hc with h | h
    · rw [hm1] at h; exact absurd h (by simp)
    · rw [hm2] at h; exact absurd h (by simp)
  unfold text_preprocess standardize_sentence_typing
  rw [hlt, hcv]
  exact remove_unnecessary_intercalate _ (swt_words_good l hl)

end TextLemmas

section PdfLemmas

theorem lawSpansAux_none (l : List Char) (h : matchMarker l = none) :
    lawSpansAux l = [] := by
  conv_lhs => unfold lawSpansAux
  split
  · rfl
  next n mk rest hm => rw [h] at hm; exact absurd hm (by simp)

theorem lawSpansAux_cons (l : List Char) (n : Nat) (mk rest : List Char)
    (h : matchMarker l = some (n, mk, rest)) :
    lawSpansAux l = (n, stripChars (mk ++ (splitAtMarker rest).1)) ::
      lawSpansAux (splitAtMarker rest).2 := by
  conv_lhs => unfold lawSpansAux
  split
  next hm => rw [hm] at h; exact absurd h (by simp)
  next n2 mk2 rest2 hm =>
    rw [h] at hm
    obtain ⟨rfl, rfl, rfl⟩ : n = n2 ∧ mk = mk2 ∧ rest = rest2 := by simpa using hm
    rfl

/-- A successful marker match decomposes into the marker word, a nonempty
digit string and the closing full stop, with the number parsed from the
digits. -/
theorem matchMarker_spec (l : List Char) (n : Nat) (mk rest : List Char)
    (h : matchMarker l = some (n, mk, rest)) :
    ∃ ds, ds ≠ [] ∧ (∀ d ∈ ds, isDigitChar d = true) ∧ n = digitsToNat ds ∧
      mk = 'Đ' :: 'i' :: 'ề' :: 'u' :: ' ' :: (ds ++ ['.']) := by
  unfold matchMarker at h
  split at h
  case h_2 => simp at h
  case h_1 rest0 =>
    split at h
    case h_2 => simp at h
    case h_1 rest2 heq =>
      split at h
      case isTrue => simp at h
      case isFalse hne =>
        obtain ⟨h1, h2, h3⟩ :
            digitsToNat (rest0.takeWhile isDigitChar) = n ∧
            'Đ' :: 'i' :: 'ề' :: 'u' :: ' ' ::
              (rest0.takeWhile isDigitChar ++ ['.']) = mk ∧
            rest2 = rest := by simpa using h
        exact ⟨rest0.takeWhile isDigitChar, hne,
          fun d hd => List.mem_takeWhile_imp hd, h1.symm, h2.symm⟩

/-- Stripping cannot eat into a prefix with non-whitespace first and last
characters. -/
theorem stripChars_marker (mk body : List Char) (c0 : Char)
    (hmk : mk.head? = some c0) (hc0 : isSpaceChar c0 = false)
    (hlast : ∀ c, mk.getLast? = some c → isSpaceChar c = false) :
    ∃ t, stripChars (mk ++ body) = mk ++ t := by
  unfold stripChars
  have hl : (mk ++ body).dropWhile isSpaceChar = mk ++ body := by
    refine dropWhile_eq_self_of_head _ _ ?_
    intro c hc
    cases mk with
    | nil => simp at hmk
    | cons d mk2 =>
      have h1 : d = c0 := by simpa using hmk
      have h2 : d = c := by simpa using hc
      rw [← h2, h1]
      exact hc0
  rw [hl, List.reverse_append, List.dropWhile_append]
  by_cases hbe : (body.reverse.dropWhile isSpaceChar).isEmpty
  · rw [if_pos hbe]
    rw [dropWhile_eq_self_of_head _ mk.reverse
      (fun c hc => hlast c (by rwa [List.head?_reverse] at hc))]
    exact ⟨[], by simp⟩
  · rw [if_neg hbe]
    exact ⟨(body.reverse.dropWhile isSpaceChar).reverse,
      by rw [List.reverse_append, List.reverse_reverse]⟩

/-- Every unit produced by the segmentation scan starts with its boundary
marker, whose digits parse to the unit's key. -/
theorem lawSpansAux_keys (l : List Char) (k : Nat) (c : List Char)
    (hmem : (k, c) ∈ lawSpansAux l) :
    ∃ ds rest2, ds ≠ [] ∧ (∀ d ∈ ds, isDigitChar d = true) ∧
      k = digitsToNat ds ∧
      c = 'Đ' :: 'i' :: 'ề' :: 'u' :: ' ' :: (ds ++ '.' :: rest2) := by
  suffices hgen : ∀ (m : Nat) (l : List Char), l.length ≤ m →
      ∀ k c, (k, c) ∈ lawSpansAux l →
      ∃ ds rest2, ds ≠ [] ∧ (∀ d ∈ ds, isDigitChar d = true) ∧
        k = digitsToNat ds ∧
        c = 'Đ' :: 'i' :: 'ề' :: 'u' :: ' ' :: (ds ++ '.' :: rest2) from
    hgen l.length l (le_refl _) k c hmem
  clear hmem
  intro m
  induction m with
  | zero =>
    intro l hl k c hmem
    obtain rfl : l = [] := List.length_eq_zero.mp (by omega)
    rw [lawSpansAux_none [] rfl] at hmem
    simp at hmem
  | succ m2 ih =>
    intro l hl k c hmem
    cases hmk : matchMarker l with
    | none =>
      rw [lawSpansAux_none l hmk] at hmem
      simp at hmem
    | some t =>
      obtain ⟨n, mk, rest⟩ := t
      rw [lawSpansAux_cons l n mk rest hmk] at hmem
      rcases List.mem_cons.mp hmem with heq | htail
      · obtain ⟨hk, hc⟩ := Prod.mk.injEq .. ▸ heq
        subst hc
        obtain ⟨ds, hne, hdig, hn, hmk2⟩ := matchMarker_spec l n mk rest hmk
        have hsplit : mk = ('Đ' :: 'i' :: 'ề' :: 'u' :: ' ' :: ds) ++ ['.'] := by
          rw [hmk2]; simp
        have hlast : ∀ c2, mk.getLast? = some c2 → isSpaceChar c2 = false := by
          intro c2 hc2
          rw [hsplit, getLast?_append_right _ _ (by simp)] at hc2
          obtain rfl : '.' = c2 := by simpa using hc2
          decide
        obtain ⟨t2, hst⟩ := stripChars_marker mk (splitAtMarker rest).1 'Đ'
          (by rw [hmk2]; rfl) (by decide) hlast
        refine ⟨ds, t2, hne, hdig, hk ▸ hn, ?_⟩
        rw [hst, hmk2]
        simp
      · have hlen : (splitAtMarker rest).2.length ≤ m2 := by
          have h1 := splitAtMarker_snd_length rest
          have h2 := matchMarker_rest_length l n mk rest hmk
          omega
        exact ih _ hlen k c htail

/-- Without a marker the segmentation suffix is empty. -/
theorem hasMarker_false (text : List Char) (h : hasMarker text = false) :
    (splitAtMarker text).2 = [] := by
  unfold hasMarker at h
  simpa using h

/-- Filtering the enumeration of a list by a contiguous index range is the
corresponding drop-and-take. -/
theorem enumFrom_filter_range (l : List (List Char)) :
    ∀ (i s n : Nat), i ≤ s →
      ((List.enumFrom i l).filter (fun p => p.1 ∈ List.range' s n)).map
          Prod.snd =
        (l.drop (s - i)).take n := by
  induction l with
  | nil => intro i s n _; simp
  | cons x t ih =>
    intro i s n hi
    rcases Nat.lt_or_ge i s with hlt | hge
    · have hnot : ¬ (i ∈ List.range' s n) := by
        rw [List.mem_range'_1]; omega
      rw [show List.enumFrom i (x :: t) = (i, x) :: List.enumFrom (i + 1) t
        from rfl]
      rw [List.filter_cons, if_neg (by simpa using hnot)]
      rw [ih (i + 1) s n hlt]
      rw [show s - i = (s - (i + 1)) + 1 from by omega]
      rfl
    · obtain rfl : i = s := le_antisymm hi hge
      cases n with
      | zero => simp
      | succ n2 =>
        rw [show List.enumFrom i (x :: t) = (i, x) :: List.enumFrom (i + 1) t
          from rfl]
        have hmem : i ∈ List.range' i (n2 + 1) := by
          rw [List.mem_range'_1]; omega
        rw [List.filter_cons, if_pos (by simpa using hmem)]
        have hcong : List.filter (fun p => p.1 ∈ List.range' i (n2 + 1))
            (List.enumFrom (i + 1) t) =
            List.filter (fun p => p.1 ∈ List.range' (i + 1) n2)
              (List.enumFrom (i + 1) t) := by
          refine List.filter_congr ?_
          intro p hp
          have hple := List.le_fst_of_mem_enumFrom hp
          simp only [decide_eq_decide]
          rw [List.mem_range'_1, List.mem_range'_1]
          omega
        rw [List.map_cons, hcong, ih (i + 1) (i + 1) n2 (le_refl _)]
        simp

end PdfLemmas

/- ======================== Claim theorems ======================== -/

/-- C3 counterexample: `text_preprocess` is not idempotent.  On `"a?áo"`
the first pass keeps the tone on the first vowel of `"áo"` (the word-level
re-placement saw `"a?áo"` as one word, whose second vowel is that `á`),
but the stripping stage then replaces `?` by a space, splitting the text
into two words; the second pass therefore re-places the tone onto the
second vowel of the now standalone word `"áo"`, giving `"a aó"` ≠ `"a áo"`. -/
theorem claim_C3_counterexample :
    text_preprocess (text_preprocess "a?áo".toList) ≠
      text_preprocess "a?áo".toList := by
  have e1 : text_preprocess "a?áo".toList = "a áo".toList := by
    unfold text_preprocess standardize_sentence_typing
    rw [remove_html_tags_id _ (by decide), convert_unicode_id _ (by decide)]
    rw [splitWs_word "a?áo".toList (by decide) (by decide)]
    decide
  have e2 : text_preprocess "a áo".toList = "a aó".toList := by
    have hsplit : splitWs "a áo".toList = ["a".toList, "áo".toList] := by
      rw [show "a áo".toList = "a".toList ++ ' ' :: "áo".toList from rfl]
      rw [splitWs_word_space "a".toList "áo".toList (by decide) (by decide)]
      rw [splitWs_word "áo".toList (by decide) (by decide)]
    unfold text_preprocess standardize_sentence_typing
    rw [remove_html_tags_id _ (by decide), convert_unicode_id _ (by decide), hsplit]
    decide
  rw [e1, e2]
  decide

/-- C3 amended: `text_preprocess` is total (a total function in this
model) but not idempotent in general; it is idempotent on every string
consisting solely of word characters and whitespace — stripping then
removes nothing, so re-normalising re-splits into the same words, and one
word-level standardisation pass is idempotent. -/
theorem claim_C3_amended (l : List Char)
    (hl : ∀ c ∈ l, isWordChar c = true ∨ isSpaceChar c = true) :
    text_preprocess (text_preprocess l) = text_preprocess l := by
  rw [text_preprocess_eq l hl]
  have hwords := swt_words_good l hl
  have hl2 : ∀ c ∈ List.intercalate [' '] ((splitWs l).map standardize_word_typing),
      isWordChar c = true ∨ isSpaceChar c = true := by
    intro c hc
    rcases mem_intercalate _ c hc with rfl | ⟨w, hw, hcw⟩
    · exact Or.inr (by decide)
    · exact Or.inl ((hwords w hw).2 c hcw)
  rw [text_preprocess_eq _ hl2]
  rw [splitWs_intercalate _ (fun w hw => ⟨(hwords w hw).1,
    fun c hc => wordChar_not_space c ((hwords w hw).2 c hc)⟩)]
  rw [List.map_map]
  exact congrArg (List.intercalate [' '])
    (List.map_congr_left (fun w _ => standardize_word_typing_idem w))

/-- C3 amended witness: idempotence on the word-and-space string
`"ab cd"`. -/
theorem claim_C3_amended_witness :
    text_preprocess (text_preprocess "ab cd".toList) =
      text_preprocess "ab cd".toList :=
  claim_C3_amended "ab cd".toList (by decide)

/-- C1: for every `law_number` in `new_units`, `update_laws` on a fresh
`WorkerUpdate` decides exactly as claimed: a key absent from the existing
snapshot is embedded and saved (and never deleted); a present key whose
similarity `1 - distance/max(len old, len new)` is at most 0.85 is deleted
and re-inserted; a present key whose similarity is above 0.85 receives no
store operation at all. -/
theorem claim_C1 (ex : Nat → Option (List Char)) (nl : List (Nat × List Char))
    (hnd : (nl.map Prod.fst).Nodup) (k : Nat) (c : List Char) (hm : (k, c) ∈ nl)
    (hok : (update_laws ex nl []).err = none) :
    (ex k = none →
      Op.insert k (stripChars c) ∈ (update_laws ex nl []).ops ∧
      Op.delete k ∉ (update_laws ex nl []).ops) ∧
    (∀ old sim, ex k = some old → get_similarity old c = some sim →
      (sim ≤ (0.85 : ℚ) →
        Op.delete k ∈ (update_laws ex nl []).ops ∧
        Op.insert k (stripChars c) ∈ (update_laws ex nl []).ops) ∧
      ((0.85 : ℚ) < sim → ∀ op ∈ (update_laws ex nl []).ops, op.law ≠ k)) := by
  have hs1 : (compareLoop ex nl ⟨[], [], none⟩).err = none :=
    update_laws_err_none nl [] hok
  have heq := update_laws_eq nl [] hs1
  obtain ⟨t1, u1, hc1, hc2, hc3, hc4⟩ :=
    compareLoop_spec (x := ex) nl ⟨[], [], none⟩ rfl
  obtain ⟨t2, he1, he2, he3⟩ := embedLoop_spec nl
    (compareLoop ex nl ⟨[], [], none⟩).lowSim
    { compareLoop ex nl ⟨[], [], none⟩ with
      ops := (compareLoop ex nl ⟨[], [], none⟩).ops ++
        (compareLoop ex nl ⟨[], [], none⟩).lowSim.map Op.delete }
  have hops : (update_laws ex nl []).ops =
      (compareLoop ex nl ⟨[], [], none⟩).ops ++
        (compareLoop ex nl ⟨[], [], none⟩).lowSim.map Op.delete ++ t2 := by
    rw [heq]
    exact he1
  constructor
  · intro hek
    constructor
    · have hmem := compareLoop_insert_mem (x := ex) nl ⟨[], [], none⟩ rfl k c hm hek hs1
      rw [hops]
      exact List.mem_append_left _ (List.mem_append_left _ hmem)
    · intro hdel
      rw [hops] at hdel
      rcases List.mem_append.mp hdel with hdel | hdel
      · rcases List.mem_append.mp hdel with hdel | hdel
        · rw [hc1] at hdel
          simp only [List.nil_append] at hdel
          obtain ⟨k2, c2, _, _, habs⟩ := hc3 _ hdel
          simp at habs
        · obtain ⟨j, hj, habs⟩ := List.mem_map.mp hdel
          obtain rfl : j = k := by simpa using habs
          rw [hc2] at hj
          simp only [List.nil_append] at hj
          obtain ⟨c2, old2, sim2, _, habs2, _, _⟩ := hc4 _ hj
          rw [hek] at habs2
          exact absurd habs2 (by simp)
      · obtain ⟨k2, c2, _, _, habs⟩ := he3 _ hdel
        simp at habs
  · intro old sim hek hsim
    constructor
    · intro hle
      have hlow := compareLoop_lowSim_mem (x := ex) nl ⟨[], [], none⟩ rfl
        k c old sim hm hek hsim hle hs1
      constructor
      · rw [hops]
        exact List.mem_append_left _
          (List.mem_append_right _ (List.mem_map_of_mem Op.delete hlow))
      · have hlkc := lawLookup_of_nodup nl hnd k c hm
        have hok2 : (embedLoop nl (compareLoop ex nl ⟨[], [], none⟩).lowSim
            { compareLoop ex nl ⟨[], [], none⟩ with
              ops := (compareLoop ex nl ⟨[], [], none⟩).ops ++
                (compareLoop ex nl ⟨[], [], none⟩).lowSim.map Op.delete }).err = none := by
          rw [← heq]
          exact hok
        have := embedLoop_insert_mem nl _ _ k c hlow hlkc hok2
        rw [heq]
        exact this
    · intro hgt op hop hlaw
      have hknotlow : k ∉ (compareLoop ex nl ⟨[], [], none⟩).lowSim := by
        intro hj
        rw [hc2] at hj
        simp only [List.nil_append] at hj
        obtain ⟨c2, old2, sim2, hm2, hek2, hsim2, hle2⟩ := hc4 _ hj
        obtain rfl : c = c2 := mem_unique_of_nodup nl hnd k c c2 hm hm2
        rw [hek] at hek2
        obtain rfl : old = old2 := by simpa using hek2
        rw [hsim] at hsim2
        obtain rfl : sim = sim2 := by simpa using hsim2
        exact absurd hle2 (not_le.mpr hgt)
      rw [hops] at hop
      rcases List.mem_append.mp hop with hop | hop
      · rcases List.mem_append.mp hop with hop | hop
        · rw [hc1] at hop
          simp only [List.nil_append] at hop
          obtain ⟨k2, c2, hm2, hek2, rfl⟩ := hc3 _ hop
          simp only [Op.law] at hlaw
          rw [hlaw] at hek2
          rw [hek] at hek2
          exact absurd hek2 (by simp)
        · obtain ⟨j, hj, habs⟩ := List.mem_map.mp hop
          rw [← habs] at hlaw
          simp only [Op.law] at hlaw
          exact hknotlow (hlaw ▸ hj)
      · obtain ⟨k2, c2, hk2, _, rfl⟩ := he3 _ hop
        simp only [Op.law] at hlaw
        exact hknotlow (hlaw ▸ hk2)

/-- C1 witness: a batch with one drifted existing law (similarity 0) and one
new law, run against a one-entry snapshot, inserts the new law, and deletes
then re-inserts the drifted one. -/
theorem claim_C1_witness :
    Op.insert 2 (stripChars "cc".toList) ∈
      (update_laws (fun j => if j = 1 then some "aaaa".toList else none)
        [(1, "bbbb".toList), (2, "cc".toList)] []).ops ∧
    Op.delete 1 ∈
      (update_laws (fun j => if j = 1 then some "aaaa".toList else none)
        [(1, "bbbb".toList), (2, "cc".toList)] []).ops ∧
    Op.insert 1 (stripChars "bbbb".toList) ∈
      (update_laws (fun j => if j = 1 then some "aaaa".toList else none)
        [(1, "bbbb".toList), (2, "cc".toList)] []).ops := by
  have hok : (update_laws (fun j => if j = 1 then some "aaaa".toList else none)
      [(1, "bbbb".toList), (2, "cc".toList)] []).err = none := by
    norm_num +decide [update_laws, compareLoop, embedLoop, embed_and_save,
      get_similarity, levenshtein, stripChars, lawLookup, List.filter,
      List.getLast?, List.getLast]
  have hup := claim_C1 (fun j => if j = 1 then some "aaaa".toList else none)
    [(1, "bbbb".toList), (2, "cc".toList)] (by decide) 1 "bbbb".toList
    (by decide) hok
  have hins := claim_C1 (fun j => if j = 1 then some "aaaa".toList else none)
    [(1, "bbbb".toList), (2, "cc".toList)] (by decide) 2 "cc".toList
    (by decide) hok
  have hsim : get_similarity "aaaa".toList "bbbb".toList = some 0 := by
    norm_num +decide [get_similarity, levenshtein]
  refine ⟨(hins.1 rfl).1, ?_, ?_⟩
  · exact ((hup.2 "aaaa".toList 0 rfl hsim).1 (by norm_num)).1
  · exact ((hup.2 "aaaa".toList 0 rfl hsim).1 (by norm_num)).2

/-- C2 counterexample: with snapshot `{1 ↦ "aaaa"}` and batch
`{1 ↦ "bbbb", 2 ↦ "cc"}` the issued trace is insert 2, delete 1, insert 1:
the insert of the new key 2 precedes the deletion of key 1, so deletions are
not all issued before all embed-and-inserts. -/
theorem claim_C2_counterexample :
    (update_laws (fun j => if j = 1 then some "aaaa".toList else none)
        [(1, "bbbb".toList), (2, "cc".toList)] []).ops =
      [Op.insert 2 "cc".toList, Op.delete 1, Op.insert 1 "bbbb".toList] ∧
    ¬ deletionsFirst
      (update_laws (fun j => if j = 1 then some "aaaa".toList else none)
        [(1, "bbbb".toList), (2, "cc".toList)] []).ops := by
  have hops : (update_laws (fun j => if j = 1 then some "aaaa".toList else none)
      [(1, "bbbb".toList), (2, "cc".toList)] []).ops =
      [Op.insert 2 "cc".toList, Op.delete 1, Op.insert 1 "bbbb".toList] := by
    norm_num +decide [update_laws, compareLoop, embedLoop, embed_and_save,
      get_similarity, levenshtein, stripChars, lawLookup, List.filter,
      List.getLast?, List.getLast]
  refine ⟨hops, ?_⟩
  rw [deletionsFirst, hops]
  decide

/-- C2 amended: within one successful fresh-engine batch the trace has three
segments in order: embed-and-inserts of keys absent from the snapshot
(issued already during the comparison pass), then every deletion for the
keys decided Update, then the re-inserts of those Update keys.  Deletions
precede the Update re-inserts, but the inserts of new keys precede the
deletions. -/
theorem claim_C2_amended (ex : Nat → Option (List Char))
    (nl : List (Nat × List Char))
    (hok : (update_laws ex nl []).err = none) :
    ∃ pass1 reembeds,
      (update_laws ex nl []).ops =
        pass1 ++ (update_laws ex nl []).lowSim.map Op.delete ++ reembeds ∧
      (∀ op ∈ pass1, ∃ k c, (k, c) ∈ nl ∧ ex k = none ∧
          op = Op.insert k (stripChars c)) ∧
      (∀ op ∈ reembeds, ∃ k c, k ∈ (update_laws ex nl []).lowSim ∧
          lawLookup nl k = some c ∧ op = Op.insert k (stripChars c)) := by
  have hs1 : (compareLoop ex nl ⟨[], [], none⟩).err = none :=
    update_laws_err_none nl [] hok
  have heq := update_laws_eq nl [] hs1
  obtain ⟨t1, u1, hc1, hc2, hc3, hc4⟩ :=
    compareLoop_spec (x := ex) nl ⟨[], [], none⟩ rfl
  obtain ⟨t2, he1, he2, he3⟩ := embedLoop_spec nl
    (compareLoop ex nl ⟨[], [], none⟩).lowSim
    { compareLoop ex nl ⟨[], [], none⟩ with
      ops := (compareLoop ex nl ⟨[], [], none⟩).ops ++
        (compareLoop ex nl ⟨[], [], none⟩).lowSim.map Op.delete }
  have hlow : (update_laws ex nl []).lowSim =
      (compareLoop ex nl ⟨[], [], none⟩).lowSim := by
    rw [heq]
    exact he2
  refine ⟨(compareLoop ex nl ⟨[], [], none⟩).ops, t2, ?_, ?_, ?_⟩
  · rw [hlow, heq]
    simpa using he1
  · intro op hop
    rw [hc1] at hop
    simp only [List.nil_append] at hop
    exact hc3 op hop
  · intro op hop
    obtain ⟨k, c, hk, hlk, hop2⟩ := he3 op hop
    exact ⟨k, c, hlow ▸ hk, hlk, hop2⟩

/-- C2 amended witness: the three-segment decomposition instantiated on the
counterexample batch. -/
theorem claim_C2_amended_witness :
    ∃ pass1 reembeds,
      (update_laws (fun j => if j = 1 then some "aaaa".toList else none)
          [(1, "bbbb".toList), (2, "cc".toList)] []).ops =
        pass1 ++ (update_laws (fun j => if j = 1 then some "aaaa".toList else none)
          [(1, "bbbb".toList), (2, "cc".toList)] []).lowSim.map Op.delete ++ reembeds ∧
      (∀ op ∈ pass1, ∃ k c, (k, c) ∈ [(1, "bbbb".toList), (2, "cc".toList)] ∧
          (fun j => if j = 1 then some "aaaa".toList else none) k = none ∧
          op = Op.insert k (stripChars c)) ∧
      (∀ op ∈ reembeds, ∃ k c,
          k ∈ (update_laws (fun j => if j = 1 then some "aaaa".toList else none)
            [(1, "bbbb".toList), (2, "cc".toList)] []).lowSim ∧
          lawLookup [(1, "bbbb".toList), (2, "cc".toList)] k = some c ∧
          op = Op.insert k (stripChars c)) := by
  refine claim_C2_amended (fun j => if j = 1 then some "aaaa".toList else none)
    [(1, "bbbb".toList), (2, "cc".toList)] ?_
  norm_num +decide [update_laws, compareLoop, embedLoop, embed_and_save,
    get_similarity, levenshtein, stripChars, lawLookup, List.filter,
    List.getLast?, List.getLast]

/-- C7: a key present in the snapshot but absent from `new_units` receives
no store operation from a fresh-engine batch, whether or not the batch
aborts: it is never deleted or overwritten. -/
theorem claim_C7 (ex : Nat → Option (List Char)) (nl : List (Nat × List Char))
    (k : Nat) (v : List Char) (_hex : ex k = some v)
    (hnk : k ∉ nl.map Prod.fst) :
    ∀ op ∈ (update_laws ex nl []).ops, op.law ≠ k := by
  obtain ⟨t1, u1, hc1, hc2, hc3, hc4⟩ :=
    compareLoop_spec (x := ex) nl ⟨[], [], none⟩ rfl
  have hkeyt1 : ∀ op ∈ t1, op.law ≠ k := by
    intro op hop hlaw
    obtain ⟨k2, c2, hm2, _, rfl⟩ := hc3 op hop
    simp only [Op.law] at hlaw
    exact hnk (hlaw ▸ List.mem_map_of_mem Prod.fst hm2)
  have hkeyu1 : ∀ j ∈ u1, j ≠ k := by
    intro j hj hlaw
    obtain ⟨c2, old2, sim2, hm2, _, _, _⟩ := hc4 j hj
    exact hnk (hlaw ▸ List.mem_map_of_mem Prod.fst hm2)
  cases hs1 : (compareLoop ex nl ⟨[], [], none⟩).err with
  | some e =>
    have hr : update_laws ex nl [] = compareLoop ex nl ⟨[], [], none⟩ := by
      simp only [update_laws, hs1]
    rw [hr, hc1]
    simp only [List.nil_append]
    exact hkeyt1
  | none =>
    have heq := update_laws_eq nl [] hs1
    obtain ⟨t2, he1, he2, he3⟩ := embedLoop_spec nl
      (compareLoop ex nl ⟨[], [], none⟩).lowSim
      { compareLoop ex nl ⟨[], [], none⟩ with
        ops := (compareLoop ex nl ⟨[], [], none⟩).ops ++
          (compareLoop ex nl ⟨[], [], none⟩).lowSim.map Op.delete }
    intro op hop hlaw
    rw [heq, he1] at hop
    rcases List.mem_append.mp hop with hop | hop
    · rcases List.mem_append.mp hop with hop | hop
      · rw [hc1] at hop
        simp only [List.nil_append] at hop
        exact hkeyt1 op hop hlaw
      · obtain ⟨j, hj, habs⟩ := List.mem_map.mp hop
        rw [hc2] at hj
        simp only [List.nil_append] at hj
        rw [← habs] at hlaw
        simp only [Op.law] at hlaw
        exact hkeyu1 j hj hlaw
    · obtain ⟨k2, c2, hk2, _, rfl⟩ := he3 op hop
      rw [hc2] at hk2
      simp only [List.nil_append] at hk2
      simp only [Op.law] at hlaw
      exact hkeyu1 k2 hk2 hlaw

/-- C7 witness: a snapshot-only key (6) is untouched by a batch that only
mentions key 5 — the one operation the batch issues does not carry key 6. -/
theorem claim_C7_witness :
    Op.law (Op.insert 5 (stripChars "abc".toList)) ≠ 6 :=
  claim_C7 (fun j => if j = 6 then some "old text".toList else none)
    [(5, "abc".toList)] 6 "old text".toList (by decide) (by decide)
    (Op.insert 5 (stripChars "abc".toList))
    (by norm_num +decide [update_laws, compareLoop, embedLoop, embed_and_save,
      get_similarity, levenshtein, stripChars, lawLookup, List.filter,
      List.getLast?, List.getLast])

/-- C9: `low_similarity_laws` is instance state that is never reset, so
Update decisions accumulate across `update_laws` calls: a key marked Update
by an earlier call is deleted again by the next call and re-embedded from
that call's batch; if the key is absent from the next batch, that call
raises (a `KeyError` wrapped in `RuntimeError`) after the deletion has
already been issued. -/
theorem claim_C9 (ex1 ex2 : Nat → Option (List Char))
    (nl1 nl2 : List (Nat × List Char)) (k : Nat)
    (hk : k ∈ (update_laws ex1 nl1 []).lowSim)
    (hok2 : (compareLoop ex2 nl2
      ⟨[], (update_laws ex1 nl1 []).lowSim, none⟩).err = none) :
    Op.delete k ∈ (update_laws ex2 nl2 (update_laws ex1 nl1 []).lowSim).ops ∧
    (k ∉ nl2.map Prod.fst →
      (update_laws ex2 nl2 (update_laws ex1 nl1 []).lowSim).err ≠ none) ∧
    (∀ c, lawLookup nl2 k = some c →
      (update_laws ex2 nl2 (update_laws ex1 nl1 []).lowSim).err = none →
      Op.insert k (stripChars c) ∈
        (update_laws ex2 nl2 (update_laws ex1 nl1 []).lowSim).ops) := by
  have heq := update_laws_eq (x := ex2) nl2 (update_laws ex1 nl1 []).lowSim hok2
  obtain ⟨t1, u1, hc1, hc2, hc3, hc4⟩ :=
    compareLoop_spec (x := ex2) nl2 ⟨[], (update_laws ex1 nl1 []).lowSim, none⟩ rfl
  have hklow : k ∈ (compareLoop ex2 nl2
      ⟨[], (update_laws ex1 nl1 []).lowSim, none⟩).lowSim := by
    rw [hc2]
    exact List.mem_append_left _ hk
  obtain ⟨t2, he1, he2, he3⟩ := embedLoop_spec nl2
    (compareLoop ex2 nl2 ⟨[], (update_laws ex1 nl1 []).lowSim, none⟩).lowSim
    { compareLoop ex2 nl2 ⟨[], (update_laws ex1 nl1 []).lowSim, none⟩ with
      ops := (compareLoop ex2 nl2
          ⟨[], (update_laws ex1 nl1 []).lowSim, none⟩).ops ++
        (compareLoop ex2 nl2
          ⟨[], (update_laws ex1 nl1 []).lowSim, none⟩).lowSim.map Op.delete }
  refine ⟨?_, ?_, ?_⟩
  · rw [heq, he1]
    exact List.mem_append_left _
      (List.mem_append_right _ (List.mem_map_of_mem Op.delete hklow))
  · intro hnk
    rw [heq]
    exact embedLoop_missing_err nl2 _ _ k hklow (lawLookup_of_not_mem nl2 k hnk)
  · intro c hlk hok3
    rw [heq]
    refine embedLoop_insert_mem nl2 _ _ k c hklow hlk ?_
    rw [← heq]
    exact hok3

/-- C9 witness: key 1 is marked Update by a first call; a second call on the
same instance with an empty batch still deletes key 1 and then raises. -/
theorem claim_C9_witness :
    Op.delete 1 ∈ (update_laws (fun _ => none) []
      (update_laws (fun j => if j = 1 then some "aaaa".toList else none)
        [(1, "bbbb".toList)] []).lowSim).ops ∧
    (update_laws (fun _ => none) []
      (update_laws (fun j => if j = 1 then some "aaaa".toList else none)
        [(1, "bbbb".toList)] []).lowSim).err ≠ none := by
  have hk : 1 ∈ (update_laws (fun j => if j = 1 then some "aaaa".toList else none)
      [(1, "bbbb".toList)] []).lowSim := by
    norm_num +decide [update_laws, compareLoop, embedLoop, embed_and_save,
      get_similarity, levenshtein, stripChars, lawLookup, List.filter,
      List.getLast?, List.getLast]
  have h := claim_C9 (fun j => if j = 1 then some "aaaa".toList else none)
    (fun _ => none) [(1, "bbbb".toList)] [] 1 hk rfl
  exact ⟨h.1, h.2.1 (by decide)⟩

/-- C10: reconciliation never divides by zero: every snapshot text produced
by `get_existing_laws` is nonempty, so `update_laws` over such a snapshot
never raises the zero-division error, while `get_similarity` applied to two
empty strings would. -/
theorem claim_C10 :
    (∀ (docs : List StoredDoc) (nl : List (Nat × List Char)) (ls : List Nat),
      (update_laws (get_existing_laws docs) nl ls).err ≠
        some UpdError.zeroDivision) ∧
    get_similarity [] [] = none := by
  constructor
  · intro docs nl ls
    have hex : ∀ k old, get_existing_laws docs k = some old → old ≠ [] :=
      fun k old h => get_existing_laws_nonempty docs k old h
    have hs1 := compareLoop_no_zeroDiv (x := get_existing_laws docs) hex nl
      ⟨[], ls, none⟩ (by simp)
    cases he : (compareLoop (get_existing_laws docs) nl ⟨[], ls, none⟩).err with
    | some e =>
      have hr : update_laws (get_existing_laws docs) nl ls =
          compareLoop (get_existing_laws docs) nl ⟨[], ls, none⟩ := by
        simp only [update_laws, he]
      rw [hr]
      exact hs1
    | none =>
      have heq := update_laws_eq (x := get_existing_laws docs) nl ls he
      rw [heq]
      exact embedLoop_no_zeroDiv nl _ _ (by simp [he])
  · rfl

/-- C10 witness: a concrete one-row snapshot run through `update_laws`
raises no zero division, and `get_similarity` on two empty strings is the
zero-division case. -/
theorem claim_C10_witness :
    (update_laws (get_existing_laws [⟨some 5, some "ab".toList⟩])
      [(5, "xy".toList)] []).err ≠ some UpdError.zeroDivision ∧
    get_similarity [] [] = none :=
  ⟨claim_C10.1 [⟨some 5, some "ab".toList⟩] [(5, "xy".toList)] [], claim_C10.2⟩

/-- C4 counterexample: the page range is not 1-indexed inclusive.  On a
three-page document, `start_page = 1, end_page = 2` passes
`range(1, 2) = [1]` to pdfminer's zero-based `page_numbers`, so only the
second page is extracted — not pages 1–2 as the claim states. -/
theorem claim_C4_counterexample :
    extract_text_from_pdf [['a'], ['b'], ['c']] (some 1) (some 2) = ['b'] ∧
    (['b'] : List Char) ≠ ['a', 'b'] := by
  constructor
  · decide
  · decide

/-- C4 (amended): with truthy endpoints `start_page = s + 1`,
`end_page = e + 1`, digital extraction concatenates the pages of zero-based
index range `[s + 1, e + 1)` — i.e. the 1-indexed range
`[start_page + 1, end_page]`, dropping `s + 1` pages and taking `e - s` —
and with either endpoint absent or falsy the whole document is
extracted. -/
theorem claim_C4_amended :
    (∀ (pages : List (List Char)) (s e : Nat),
      extract_text_from_pdf pages (some (s + 1)) (some (e + 1)) =
        ((pages.drop (s + 1)).take (e - s)).join) ∧
    (∀ (pages : List (List Char)) (sp ep : Option Nat),
      truthy sp = false ∨ truthy ep = false →
      extract_text_from_pdf pages sp ep = pages.join) := by
  constructor
  · intro pages s e
    have hstep : extract_text_from_pdf pages (some (s + 1)) (some (e + 1)) =
        ((pages.enum.filter
          (fun p => p.1 ∈ List.range' (s + 1) (e + 1 - (s + 1)))).map
            Prod.snd).join := by
      unfold extract_text_from_pdf
      rw [show (truthy (some (s + 1)) && truthy (some (e + 1))) = true
        from rfl]
      rfl
    rw [hstep, show e + 1 - (s + 1) = e - s from by omega]
    rw [show pages.enum = List.enumFrom 0 pages from rfl]
    rw [enumFrom_filter_range pages 0 (s + 1) (e - s) (Nat.zero_le _)]
    rfl
  · intro pages sp ep h
    unfold extract_text_from_pdf
    have hif : (truthy sp && truthy ep) = false := by
      rcases h with h | h <;> simp [h]
    rw [hif]
    rfl

/-- C4 witness: on a three-page document, truthy endpoints
`start_page = 1, end_page = 2` extract exactly the drop-and-take slice,
and the falsy endpoint `start_page = 0` extracts the whole document. -/
theorem claim_C4_amended_witness :
    extract_text_from_pdf [['a'], ['b'], ['c']] (some 1) (some 2) =
      (([['a'], ['b'], ['c']].drop 1).take 1).join ∧
    extract_text_from_pdf [['a'], ['b'], ['c']] (some 0) (some 2) =
      [['a'], ['b'], ['c']].join :=
  ⟨claim_C4_amended.1 [['a'], ['b'], ['c']] 0 1,
   claim_C4_amended.2 [['a'], ['b'], ['c']] (some 0) (some 2) (Or.inl rfl)⟩

/-- C5 counterexample: on empty extracted text (which contains zero
markers) the pipeline raises the no-text error, not the
empty-segmentation error the claim names. -/
theorem claim_C5_counterexample :
    hasMarker [] = false ∧
    process_file [] 1 = Except.error ProcError.noText ∧
    ProcError.noText ≠ ProcError.segmentationEmpty := by
  refine ⟨by decide, ?_, by decide⟩
  simp [process_file]

set_option maxRecDepth 10000 in
/-- C5 (amended): segmentation of `"Điều 1. A Điều 2. B"` yields exactly
`{1 ↦ "Điều 1. A", 2 ↦ "Điều 2. B"}`; and on any text with no marker the
segmentation is empty and `process_file` raises an error with no partial
output — the empty-segmentation error whenever the text itself is
nonempty, but the no-text error on empty text. -/
theorem claim_C5_amended :
    extract_laws_from_text "Điều 1. A Điều 2. B".toList =
      [(1, "Điều 1. A".toList), (2, "Điều 2. B".toList)] ∧
    ∀ (text : List Char) (minw : Nat), hasMarker text = false →
      extract_laws_from_text text = [] ∧
      (∃ e, process_file text minw = Except.error e) ∧
      (text ≠ [] →
        process_file text minw = Except.error ProcError.segmentationEmpty) := by
  constructor
  · unfold extract_laws_from_text
    rw [show (splitAtMarker "Điều 1. A Điều 2. B".toList).2 =
      "Điều 1. A Điều 2. B".toList from by decide]
    rw [lawSpansAux_cons _ 1 "Điều 1.".toList " A Điều 2. B".toList
      (by decide)]
    rw [lawSpansAux_cons _ 2 "Điều 2.".toList " B".toList (by decide)]
    rw [lawSpansAux_none _ (by decide)]
    decide
  · intro text minw hmk
    have hext : extract_laws_from_text text = [] := by
      unfold extract_laws_from_text
      rw [hasMarker_false text hmk]
      exact lawSpansAux_none [] rfl
    refine ⟨hext, ?_, ?_⟩
    · by_cases hnil : text = []
      · exact ⟨ProcError.noText, by simp [process_file, hnil]⟩
      · exact ⟨ProcError.segmentationEmpty,
          by simp [process_file, hnil, hext]⟩
    · intro hnil
      simp [process_file, hnil, hext]

/-- C5 witness: on the markerless text `"xyz"` the segmentation is empty
and `process_file` aborts with the empty-segmentation error. -/
theorem claim_C5_amended_witness :
    extract_laws_from_text "xyz".toList = [] ∧
    process_file "xyz".toList 3 =
      Except.error ProcError.segmentationEmpty := by
  have h := claim_C5_amended.2 "xyz".toList 3 (by decide)
  exact ⟨h.1, h.2.2 (by decide)⟩

/-- C6: the length filter keeps a unit whose raw whitespace-token count
reaches the threshold exactly, and (under distinct keys) drops a unit one
token short entirely; the count is taken on the raw text and the kept
unit's output content is the normalization of its raw content. -/
theorem claim_C6 (laws : List (Nat × List Char)) (minw : Nat) (k : Nat)
    (c : List Char) (hm : (k, c) ∈ laws) :
    (count_words_in_text c = minw →
      (k, text_preprocess c) ∈ filter_laws_by_length laws minw) ∧
    (count_words_in_text c + 1 = minw → (laws.map Prod.fst).Nodup →
      ∀ v, (k, v) ∉ filter_laws_by_length laws minw) := by
  constructor
  · intro hcnt
    unfold filter_laws_by_length
    refine List.mem_map.mpr ⟨(k, c), ?_, rfl⟩
    refine List.mem_filter.mpr ⟨hm, ?_⟩
    simp [hcnt]
  · intro hcnt hnd v hv
    unfold filter_laws_by_length at hv
    obtain ⟨⟨k2, c2⟩, hmem, heq⟩ := List.mem_map.mp hv
    obtain ⟨hk, hc⟩ := Prod.mk.injEq .. ▸ heq
    subst hk
    obtain ⟨hlaws, hge⟩ := List.mem_filter.mp hmem
    have hc2 : c2 = c := mem_unique_of_nodup laws hnd k2 c2 c hlaws hm
    subst hc2
    simp only [decide_eq_true_eq] at hge
    omega

/-- C6 witness: with threshold 3, the three-word unit is kept (normalized)
and the two-word unit is dropped. -/
theorem claim_C6_witness :
    (1, text_preprocess "x y z".toList) ∈
      filter_laws_by_length [(1, "x y z".toList), (2, "x y".toList)] 3 ∧
    (2, text_preprocess "x y".toList) ∉
      filter_laws_by_length [(1, "x y z".toList), (2, "x y".toList)] 3 := by
  have hc3 : count_words_in_text "x y z".toList = 3 := by
    unfold count_words_in_text
    rw [show "x y z".toList = "x".toList ++ ' ' :: "y z".toList from rfl]
    rw [splitWs_word_space "x".toList "y z".toList (by decide) (by decide)]
    rw [show "y z".toList = "y".toList ++ ' ' :: "z".toList from rfl]
    rw [splitWs_word_space "y".toList "z".toList (by decide) (by decide)]
    rw [splitWs_word "z".toList (by decide) (by decide)]
    rfl
  have hc2 : count_words_in_text "x y".toList = 2 := by
    unfold count_words_in_text
    rw [show "x y".toList = "x".toList ++ ' ' :: "y".toList from rfl]
    rw [splitWs_word_space "x".toList "y".toList (by decide) (by decide)]
    rw [splitWs_word "y".toList (by decide) (by decide)]
    rfl
  constructor
  · exact (claim_C6 [(1, "x y z".toList), (2, "x y".toList)] 3 1
      "x y z".toList (by decide)).1 hc3
  · exact (claim_C6 [(1, "x y z".toList), (2, "x y".toList)] 3 2
      "x y".toList (by decide)).2 (by rw [hc2]) (by decide) _

set_option maxRecDepth 10000 in
/-- C8 counterexample: strict positivity fails — the text `"Điều 0. x"`
segments to a unit with key `0`, parsed from the marker `"Điều 0."`. -/
theorem claim_C8_counterexample :
    (0, "Điều 0. x".toList) ∈ extract_laws_from_text "Điều 0. x".toList ∧
    ¬ (0 < 0) := by
  constructor
  · unfold extract_laws_from_text
    rw [show (splitAtMarker "Điều 0. x".toList).2 = "Điều 0. x".toList
      from by decide]
    rw [lawSpansAux_cons _ 0 "Điều 0.".toList " x".toList (by decide)]
    rw [lawSpansAux_none _ (by decide)]
    decide
  · decide

/-- C8 (amended): every key of every segmentation is the integer parsed
from the nonempty digit string of the unit's boundary marker
`"Điều <digits>."`, which the unit's content starts with — but the key is
only a natural number, not necessarily strictly positive, since `"Điều 0."`
is a valid marker. -/
theorem claim_C8_amended (text : List Char) (k : Nat) (c : List Char)
    (hmem : (k, c) ∈ extract_laws_from_text text) :
    ∃ ds rest2, ds ≠ [] ∧ (∀ d ∈ ds, isDigitChar d = true) ∧
      k = digitsToNat ds ∧
      c = 'Đ' :: 'i' :: 'ề' :: 'u' :: ' ' :: (ds ++ '.' :: rest2) :=
  lawSpansAux_keys (splitAtMarker text).2 k c hmem

set_option maxRecDepth 10000 in
/-- C8 witness: the single unit of `"Điều 7. x"` carries key 7 parsed
from its marker's digits, and its content starts with the marker. -/
theorem claim_C8_amended_witness :
    ∃ ds rest2, ds ≠ [] ∧ (∀ d ∈ ds, isDigitChar d = true) ∧
      7 = digitsToNat ds ∧
      "Điều 7. x".toList =
        'Đ' :: 'i' :: 'ề' :: 'u' :: ' ' :: (ds ++ '.' :: rest2) :=
  claim_C8_amended "Điều 7. x".toList 7 "Điều 7. x".toList (by
    unfold extract_laws_from_text
    rw [show (splitAtMarker "Điều 7. x".toList).2 = "Điều 7. x".toList
      from by decide]
    rw [lawSpansAux_cons _ 7 "Điều 7.".toList " x".toList (by decide)]
    rw [lawSpansAux_none _ (by decide)]
    decide)

end Chatbot
